import Mathlib

/-!
# Verification of the AudioSeparationTool separation core

A shallow embedding of the separation pipeline of the AudioSeparationTool
repository (Qt/libtorch C++).  Sample values and embedding components are
modelled as rationals (`ℚ`): every float operation of the source is embedded
as the corresponding exact rational operation, the standard idealization of
32-bit float arithmetic.  Machine integers (`int64_t`, `int`) are modelled as
`ℕ` at the points where the source guarantees non-negativity.

Definitions are translated from the source files:
  separationworker.cpp, audioserializer.cpp, audio_preprocess_utils.cpp,
  htsatworker.cpp, asyncprocessor.cpp, resourcemanager.cpp, constants.h.
-/

namespace AudioSep

/-! ## Constants (constants.h) -/

/-- `Constants::AUDIO_CLIP_SAMPLES = 320000`. -/
def CLIP : ℕ := 320000

/-- `Constants::AUDIO_SAMPLE_RATE = 32000`. -/
def SAMPLE_RATE : ℕ := 32000

/-- The expected embedding dimension (`EXPECTED_CONDITION_DIM = 2048`,
zero_shot_asp_feature_extractor.cpp). -/
def EMBEDDING_DIM : ℕ := 2048

/-- Chunk stride: `static_cast<int64_t>(m_clipSamples * (1.0f - m_overlapRate))`
with `m_clipSamples = 320000` and `m_overlapRate = 0.5f`; the float product
`320000 * 0.5f` is exact, so the cast yields 160000. -/
def STEP : ℕ := 160000

/-- Fade length used by `doOverlapAdd`:
`static_cast<int64_t>(chunkSize * m_overlapRate)`; exact for
`chunkSize = 320000`, giving 160000. -/
def FADE : ℕ := 160000

/-- `Constants::TEMP_SEGMENTS_DIR`. -/
def TEMP_SEGMENTS_DIR : String := "temp_chunks"

/-- `Constants::SEPARATED_RESULT_DIR`. -/
def SEPARATED_RESULT_DIR : String := "separated_results"

/-- `Constants::OUTPUT_FEATURES_DIR`. -/
def OUTPUT_FEATURES_DIR : String := "output_features"

/-! ## Overlap-add (SeparationWorker::doOverlapAdd, separationworker.cpp:100-167) -/

/-- `torch::linspace(a, b, n)` evaluated at index `k` (`0 ≤ k < n`):
endpoint-inclusive linear spacing; a single-point linspace holds `a`. -/
def linspace (a b : ℚ) (n k : ℕ) : ℚ :=
  if n = 1 then a else a + (b - a) * k / ((n : ℚ) - 1)

/-- The per-chunk window built inside the `doOverlapAdd` loop: a ones tensor,
then (when `fadeLength > 0`) `linspace(0,1,fade)` assigned over
`[0, fade)` and `linspace(1,0,fade)` assigned over `[chunkSize-fade, chunkSize)`.
The fade-out assignment happens last, so it wins where the slices overlap. -/
def windowAt (chunkSize fade : ℕ) (k : ℕ) : ℚ :=
  if 0 < fade then
    if chunkSize - fade ≤ k then linspace 1 0 fade (k - (chunkSize - fade))
    else if k < fade then linspace 0 1 fade k
    else 1
  else 1

/-- One iteration of the `doOverlapAdd` loop: chunk `i` (zero-based) is
window-multiplied and added to `output[start, start+chunkSize)`, and the
window is added to `weight[start, start+chunkSize)`, with
`start = i * step`.  The state is the pair (output buffer, weight buffer),
each a total function on sample indices. -/
def olaStep (chunkSize step fade : ℕ) (acc : (ℕ → ℚ) × (ℕ → ℚ)) (ic : ℕ × List ℚ) :
    (ℕ → ℚ) × (ℕ → ℚ) :=
  let start := ic.1 * step
  (fun n =>
    if start ≤ n ∧ n < start + chunkSize then
      acc.1 n + ic.2.getD (n - start) 0 * windowAt chunkSize fade (n - start)
    else acc.1 n,
   fun n =>
    if start ≤ n ∧ n < start + chunkSize then
      acc.2 n + windowAt chunkSize fade (n - start)
    else acc.2 n)

/-- The accumulation loop of `doOverlapAdd`, folded over the indexed chunks,
starting from zeroed output and weight buffers. -/
def olaFold (chunkSize step fade : ℕ) (chunks : List (List ℚ)) :
    (ℕ → ℚ) × (ℕ → ℚ) :=
  chunks.enum.foldl (olaStep chunkSize step fade) (fun _ => 0, fun _ => 0)

/-- An overlap-add result buffer: a length and the sample values (indices at
and beyond `len` are irrelevant). -/
structure OlaOut where
  len : ℕ
  val : ℕ → ℚ

/-- `SeparationWorker::doOverlapAdd(const std::vector<torch::Tensor>&)`.
Empty chunk lists and chunk-size mismatches are error paths (`none`).
`chunkSize` is the first chunk's temporal extent; `step` and `fadeLength`
are `chunkSize * 0.5f` cast to `int64_t` (exact halving at the sizes
reached by the pipeline).  After the loop the weight has its zeros replaced
by ones (`torch::where(weight == 0, ones, weight)`) and the output is
divided by it elementwise. -/
def doOverlapAdd (chunks : List (List ℚ)) : Option OlaOut :=
  match chunks with
  | [] => none
  | c :: _ =>
    let chunkSize := c.length
    let step := chunkSize / 2
    let fade := chunkSize / 2
    let totalLength := step * (chunks.length - 1) + chunkSize
    if chunks.all (fun d => d.length = chunkSize) then
      let p := olaFold chunkSize step fade chunks
      some { len := totalLength
             val := fun n => p.1 n / (if p.2 n = 0 then 1 else p.2 n) }
    else none

/-! ## Chunking (SeparationWorker::processSingleFile / processChannel) -/

/-- The chunk start positions generated by the loop
`while (pos < totalSamples) ... pos += step` (separationworker.cpp:273-305). -/
def chunkStartsFrom (L pos : ℕ) : List ℕ :=
  if _h : pos < L then pos :: chunkStartsFrom L (pos + STEP) else []
termination_by L - pos
decreasing_by simp [STEP]; omega

/-- Chunk starts for a waveform of `L` samples. -/
def chunkStarts (L : ℕ) : List ℕ := chunkStartsFrom L 0

/-- Chunk extraction (separationworker.cpp:274-284): the slice
`[pos, pos + CLIP)` of the waveform, right-padded with zeros when it
extends past the end. -/
def makeChunk (w : List ℚ) (pos : ℕ) : List ℚ :=
  if pos + CLIP ≤ w.length then ((w.drop pos).take CLIP)
  else (w.drop pos) ++ List.replicate (pos + CLIP - w.length) 0

/-- The list of separated chunks of the mono pipeline: each chunk of the
input is separated by the model (`sep`, the opaque
`extractor->forward` call of `processChunk`, reshaped to and from
`(1, CLIP, 1)`). -/
def processedChunks (sep : List ℚ → List ℚ) (w : List ℚ) : List (List ℚ) :=
  (chunkStarts w.length).map (fun pos => sep (makeChunk w pos))

/-- The tail of `SeparationWorker::processSingleFile` for an already loaded
1-D mono waveform (separationworker.cpp:261-335): chunk, separate each chunk,
overlap-add, then trim to the original length when the reconstruction is
longer (`if (finalTensor.size(1) > originalLength)`); there is no padding
branch in the mono path. -/
def processSingleFileCore (sep : List ℚ → List ℚ) (w : List ℚ) : Option OlaOut :=
  match doOverlapAdd (processedChunks sep w) with
  | none => none
  | some o =>
    if w.length < o.len then some { len := w.length, val := o.val } else some o

/-- `SeparationWorker::processChannel` (separationworker.cpp:439-525) on an
already extracted 1-D channel: same chunk/separate/overlap-add pipeline,
then trim when longer than the original length, or right-pad with zeros
when shorter. -/
def processChannel (sep : List ℚ → List ℚ) (w : List ℚ) : Option OlaOut :=
  match doOverlapAdd (processedChunks sep w) with
  | none => none
  | some o =>
    if w.length < o.len then some { len := w.length, val := o.val }
    else if o.len < w.length then
      some { len := w.length, val := fun n => if n < o.len then o.val n else 0 }
    else some o

/-- The tail of `SeparationWorker::processSingleFileStereo`
(separationworker.cpp:379-432) on a loaded stereo waveform, given as a list
of (left, right) frames: the two channels are processed independently by
`processChannel`, recombined as `(frames, 2)` (left = channel 0), and the
combined result is trimmed to the original length when longer.  The result
is the frame count together with the per-frame stereo sample pair. -/
def processSingleFileStereoCore (sep : List ℚ → List ℚ) (w : List (ℚ × ℚ)) :
    Option (ℕ × (ℕ → ℚ × ℚ)) :=
  let leftChannel := w.map Prod.fst
  let rightChannel := w.map Prod.snd
  match processChannel sep leftChannel, processChannel sep rightChannel with
  | some lo, some ro =>
    some (if w.length < lo.len then w.length else lo.len,
          fun n => (lo.val n, ro.val n))
  | _, _ => none

/-- The per-sample weight accumulator `weight` of `doOverlapAdd` as reached
by the mono pipeline on waveform `w` (claim C8's `w[n]`): the second
component of the accumulation fold, with the chunk size (and the derived
step and fade) taken from the first processed chunk exactly as
`doOverlapAdd` does. -/
def monoWsum (sep : List ℚ → List ℚ) (w : List ℚ) (n : ℕ) : ℚ :=
  match processedChunks sep w with
  | [] => 0
  | c :: cs => (olaFold c.length (c.length / 2) (c.length / 2) (c :: cs)).2 n

/-! ## WAV result shapes (AudioSerializer, audioserializer.cpp) -/

/-- The shape of a torch tensor of rank 1-3, as handed to the serializer. -/
inductive TShape where
  | d1 (n : ℕ)
  | d2 (frames channels : ℕ)
  | d3 (batch frames channels : ℕ)

/-- `AudioSerializer::normalizeTensorShape` (audioserializer.cpp:148-171) at
the shape level: 1-D becomes `(frames, 1)`, 2-D is used as-is, 3-D of shape
`(1, frames, 1)` is squeezed to `(frames, 1)`; anything else is an error.
The result is `(frames, channels)` of the WAV about to be written. -/
def normalizeTensorShape : TShape → Option (ℕ × ℕ)
  | .d1 n => some (n, 1)
  | .d2 f c => some (f, c)
  | .d3 b f c => if b = 1 ∧ c = 1 then some (f, 1) else none

/-- The shape of the tensor the mono path emits with `separationFinished`:
`doOverlapAdd` returns `(1, totalLength, 1)` and trimming slices dim 1, so
the emission is `(1, len, 1)`. -/
def monoEmittedShape (o : OlaOut) : TShape := .d3 1 o.len 1

/-- The shape of the tensor the stereo path emits: `(frames, 2)`. -/
def stereoEmittedShape (r : ℕ × (ℕ → ℚ × ℚ)) : TShape := .d2 r.1 2

/-! ## Reference overlap-add (spec §4.F.4c, the wording of claim C2) -/

/-- The spec's window: linear fade-in over the first `FADE` samples (0→1),
constant 1 in the middle, linear fade-out over the last `FADE` samples
(1→0).  This definition follows the spec's words, to be compared with the
source-derived `windowAt`. -/
def specWindow (k : ℕ) : ℚ :=
  if k < FADE then (k : ℚ) / ((FADE : ℚ) - 1)
  else if CLIP - FADE ≤ k then ((CLIP : ℚ) - 1 - (k : ℚ)) / ((FADE : ℚ) - 1)
  else 1

/-- The spec's per-sample weight accumulator: chunk `i` contributes the
window value at offset `n - i·STEP` whenever it covers sample `n`. -/
def specWsum (N n : ℕ) : ℚ :=
  ∑ i ∈ Finset.range N,
    if i * STEP ≤ n ∧ n < i * STEP + CLIP then specWindow (n - i * STEP) else 0

/-- The spec's summed windowed output at sample `n`. -/
def specOut (chunks : List (List ℚ)) (n : ℕ) : ℚ :=
  ∑ i ∈ Finset.range chunks.length,
    if i * STEP ≤ n ∧ n < i * STEP + CLIP then
      (chunks.getD i []).getD (n - i * STEP) 0 * specWindow (n - i * STEP)
    else 0

/-- The spec's normalized overlap-add value at sample `n`: the summed output
divided by the weight accumulator, with zero weights replaced by 1. -/
def specOlaVal (chunks : List (List ℚ)) (n : ℕ) : ℚ :=
  specOut chunks n /
    (if specWsum chunks.length n = 0 then 1 else specWsum chunks.length n)

/-- The spec's output length: `STEP·(N−1) + CLIP`. -/
def specOlaLen (N : ℕ) : ℕ := STEP * (N - 1) + CLIP

/-! ## WAV writing (AudioSerializer::writeWavHeader / writeWavData,
audioserializer.cpp:173-218) -/

/-- Little-endian encoding of the low `n` bytes of a value, as produced by
`file.write((char*)&v, n)` on a little-endian machine. -/
def encLE : ℕ → ℕ → List ℕ
  | 0, _ => []
  | n + 1, v => v % 256 :: encLE n (v / 256)

/-- `AudioSerializer::writeWavHeader`: the exact byte sequence written for
`channels`, `sampleRate` and `numSamples` (number of float samples, frames
times channels).  Tags are ASCII (`RIFF`, `WAVE`, `fmt `, `data`); the
format code is 3 (IEEE float), bits per sample 32, and the data-chunk size
field is `numSamples * 4` (an `int64_t`, of which 4 bytes are written). -/
def writeWavHeader (channels sampleRate numSamples : ℕ) : List ℕ :=
  let dataSize := numSamples * 4
  let totalSize := 36 + dataSize
  [82, 73, 70, 70] ++ encLE 4 totalSize ++ [87, 65, 86, 69] ++
  [102, 109, 116, 32] ++ encLE 4 16 ++ encLE 2 3 ++ encLE 2 channels ++
  encLE 4 sampleRate ++ encLE 4 (sampleRate * channels * 4) ++
  encLE 2 (channels * 4) ++ encLE 2 32 ++
  [100, 97, 116, 97] ++ encLE 4 dataSize

/-- `AudioSerializer::writeWavData`: the interleaved samples, each encoded
by the machine's little-endian IEEE-754 binary32 representation, modelled
by the opaque 4-byte encoder `enc`. -/
def writeWavData (enc : ℚ → List ℕ) (samples : List ℚ) : List ℕ :=
  samples.flatMap enc

/-- The interleaved sample list of a normalized `(frames, channels)`
tensor whose value at frame `f`, channel `c` is `val f c`. -/
def interleave (frames channels : ℕ) (val : ℕ → ℕ → ℚ) : List ℚ :=
  (List.range frames).flatMap (fun f => (List.range channels).map (val f))

/-- `AudioSerializer::saveWavToFile` (audioserializer.cpp:21-70) at the
level of the bytes written: normalize the tensor shape, then header plus
data.  `sampleRate` defaults to 32000 at the call sites.  Directory
creation and I/O failures are abstracted away (they yield no file). -/
def saveWavToFile (enc : ℚ → List ℕ) (shape : TShape) (val : ℕ → ℕ → ℚ)
    (sampleRate : ℕ) : Option (List ℕ) :=
  match normalizeTensorShape shape with
  | none => none
  | some (frames, channels) =>
    some (writeWavHeader channels sampleRate (frames * channels) ++
          writeWavData enc (interleave frames channels val))

/-! ## The other WAV writer (AudioPreprocessUtils::saveToWav,
audio_preprocess_utils.cpp:201-383) -/

/-- libsndfile's `SF_FORMAT_WAV` major-format code. -/
def SF_FORMAT_WAV : ℕ := 0x010000

/-- libsndfile's `SF_FORMAT_PCM_16` subtype code (16-bit signed PCM). -/
def SF_FORMAT_PCM_16 : ℕ := 0x0002

/-- libsndfile's `SF_FORMAT_FLOAT` subtype code (32-bit IEEE float). -/
def SF_FORMAT_FLOAT : ℕ := 0x0006

/-- libsndfile's `SF_FORMAT_SUBMASK`: the subtype is the low 16 bits of the
format word. -/
def SF_FORMAT_SUBMASK : ℕ := 0xFFFF

/-- The format word `AudioPreprocessUtils::saveToWav` requests from
libsndfile: `sfinfo.format = SF_FORMAT_WAV | SF_FORMAT_PCM_16`
(audio_preprocess_utils.cpp:293), i.e. a 16-bit integer PCM WAV. -/
def saveToWavFormat : ℕ := SF_FORMAT_WAV ||| SF_FORMAT_PCM_16

/-- The validation chain of `AudioPreprocessUtils::saveToWav` for a 1-D or
2-D tensor with the given shape (NaN/Inf cannot arise in the rational
model): non-empty path and positive rate are ambient; the tensor must be
non-empty, a 2-D tensor must have 1-64 channels, and the frame count must
be positive.  `true` means the function proceeds to open the file with
`saveToWavFormat`. -/
def saveToWavAccepts (shape : TShape) (sampleRate : ℕ) : Bool :=
  match shape with
  | .d1 n => 0 < sampleRate && 0 < n
  | .d2 f c => 0 < sampleRate && 0 < f * c && 1 ≤ c && c ≤ 64 && 0 < f
  | .d3 _ _ _ => false

/-! ## Embedding codec (AudioSerializer::saveEmbeddingToFile /
loadEmbeddingFromFile, audioserializer.cpp:83-146)

`saveEmbeddingToFile` writes each float with `QTextStream::operator<<`,
whose default formatting is smart notation with `realNumberPrecision` 6:
the token written for a value denotes that value rounded to 6 significant
decimal digits.  We model the file's single line by the list of exact
rational values its numeric tokens denote. -/

/-- Number of decimal digits, by fuelled division (`digits10Aux n n`
terminates because `n / 10 < n` for `n ≠ 0`). -/
def digits10Aux : ℕ → ℕ → ℕ
  | 0, _ => 0
  | fuel + 1, n => if n = 0 then 0 else 1 + digits10Aux fuel (n / 10)

/-- Number of decimal digits of a natural number (0 for 0). -/
def digits10 (n : ℕ) : ℕ := digits10Aux n n

/-- The floor of the base-10 logarithm of a positive rational: for `x ≥ 1`
it is one less than the digit count of `⌊x⌋`; for `x < 1` it is minus the
smallest `k` with `x * 10^k ≥ 1`, searched over a range that always
contains such a `k`. -/
def log10floorPos (x : ℚ) : ℤ :=
  if 1 ≤ x then (digits10 ⌊x⌋.toNat : ℤ) - 1
  else
    -((((List.range (digits10 x.den + 2)).find?
        (fun k => decide (1 ≤ x * 10 ^ k))).getD 1 : ℤ))

/-- Rounding a positive rational to 6 significant decimal digits. -/
def sig6pos (x : ℚ) : ℚ :=
  let s : ℚ := 10 ^ (log10floorPos x - 5)
  (round (x / s) : ℚ) * s

/-- Rounding a rational to 6 significant decimal digits, the value denoted
by the token `QTextStream` writes with its default precision. -/
def sig6 (x : ℚ) : ℚ :=
  if x = 0 then 0 else if x < 0 then -sig6pos (-x) else sig6pos x

/-- `AudioSerializer::saveEmbeddingToFile`: the numeric tokens of the
single line written (space-separated, newline-terminated); each token
denotes its value rounded to `QTextStream`'s 6 significant digits. -/
def saveEmbeddingToFile (embedding : List ℚ) : List ℚ :=
  embedding.map sig6

/-- `AudioSerializer::loadEmbeddingFromFile`: reads the first line, splits
on spaces skipping empty parts, and parses each token with `toFloat`
(invalid tokens are skipped with a warning; every token written by the
codec is valid, and an in-range decimal token parses to its value in the
rational idealization). -/
def loadEmbeddingFromFile (tokens : List ℚ) : List ℚ :=
  tokens.filterMap some

/-- A rational expressible with at most 6 significant decimal digits: an
integer of magnitude below `10^6` scaled by a power of ten. -/
def SixDigits (x : ℚ) : Prop :=
  ∃ m : ℤ, ∃ e : ℕ,
    m.natAbs < 10 ^ 6 ∧ (x = (m : ℚ) * 10 ^ e ∨ x = (m : ℚ) / 10 ^ e)

/-! ## Feature averaging (HTSATWorker, htsatworker.cpp) -/

/-- `HTSATWorker::computeAverageEmbedding` (htsatworker.cpp:119-151): sum
all embeddings elementwise into a zero accumulator of the first
embedding's size, skipping embeddings of mismatched size, then divide each
element by the total embedding count. -/
def computeAverageEmbedding (embeddings : List (List ℚ)) : List ℚ :=
  match embeddings with
  | [] => []
  | e0 :: _ =>
    let embeddingSize := e0.length
    if embeddingSize = 0 then []
    else
      let summed := embeddings.foldl
        (fun acc e => if e.length = embeddingSize then acc.zipWith (· + ·) e else acc)
        (List.replicate embeddingSize 0)
      summed.map (fun x => x / (embeddings.length : ℚ))

/-- `HTSATWorker::processFilesAndCollectEmbeddings` (htsatworker.cpp:63-88):
each query file yields an embedding or is skipped (decode or extraction
failure); `extract` is the per-file load-preprocess-extract composite. -/
def processFilesAndCollectEmbeddings {α : Type} (extract : α → Option (List ℚ))
    (filePaths : List α) : List (List ℚ) :=
  filePaths.filterMap extract

/-- `HTSATWorker::doGenerateAudioFeatures` (htsatworker.cpp:49-59). -/
def doGenerateAudioFeatures {α : Type} (extract : α → Option (List ℚ))
    (filePaths : List α) : List ℚ :=
  let embeddings := processFilesAndCollectEmbeddings extract filePaths
  if embeddings.isEmpty then [] else computeAverageEmbedding embeddings

/-- `HTSATWorker::generateFeatures` (htsatworker.cpp:20-47): empty file
lists and empty embedding results are error paths (no `finished` signal,
hence no feature file is written); otherwise the averaged embedding is
emitted for saving. -/
def generateFeatures {α : Type} (extract : α → Option (List ℚ))
    (filePaths : List α) : Option (List ℚ) :=
  if filePaths.isEmpty then none
  else
    let avgEmb := doGenerateAudioFeatures extract filePaths
    if avgEmb.isEmpty then none else some avgEmb

/-! ## Job orchestration (AsyncProcessor, asyncprocessor.cpp) -/

/-- The externally visible events of a job (signals re-emitted by
`AsyncProcessor`); progress events are irrelevant to the claims. -/
inductive SepEvent where
  | errorEvent (message : String)
  | finishedEvent (paths : List String)
deriving DecidableEq

/-- `QFileInfo::baseName`: the file name (the part after the last `/`) up
to, excluding, the first dot. -/
def baseName (path : String) : String :=
  String.mk ((path.data.reverse.takeWhile (fun c => c ≠ '/')).reverse.takeWhile
    (fun c => c ≠ '.'))

/-- The result path `AsyncProcessor::handleFinalResult` writes to:
`separated_results/<basename>_<featureName>.wav`. -/
def sepOutputPath (audioPath featureName : String) : String :=
  SEPARATED_RESULT_DIR ++ "/" ++ baseName audioPath ++ "_" ++ featureName ++ ".wav"

/-- The per-file outcome of the separation worker on one mixture: either a
hard failure — the worker returned without a result after emitting one
`error(...)` signal, or two when an outer check re-reports a nested
failure (`loadFeature`'s own error followed by
`Failed to load feature tensor: %1`, or `Extractor forward error: %1`
followed by `Processing chunk failed`; separationworker.cpp:32-98 and
200-340) — carrying the emitted messages in order (at least one; the
messages need not mention the mixture's path), or a separated tensor
whose WAV write succeeds or fails. -/
inductive FileOutcome where
  | hardFail (firstError : String) (laterErrors : List String)
  | separated (saveOk : Bool)

/-- The orchestrator state: the busy flag `m_isProcessing`, the emitted
events in order, and the result files actually written to disk. -/
structure AsyncState where
  isProcessing : Bool
  events : List SepEvent
  written : List String
deriving DecidableEq

/-- `AsyncProcessor::handleFinalResult` (asyncprocessor.cpp:239-261): save
the tensor (the write outcome is only logged), clear the busy flag, and
emit `separationProcessingFinished` carrying the output path — whether or
not the save succeeded. -/
def handleFinalResult (audioPath featureName : String) (saveOk : Bool)
    (st : AsyncState) : AsyncState :=
  let outputPath := sepOutputPath audioPath featureName
  { st with
    isProcessing := false
    written := if saveOk then st.written ++ [outputPath] else st.written
    events := st.events ++ [SepEvent.finishedEvent [outputPath]] }

/-- The handling of one mixture file: every worker `error(...)` is
re-emitted as `processingError` with the busy flag cleared
(asyncprocessor.cpp:118-122), so a hard-failing file contributes one
`Error` event per emitted message — and at least one message is emitted,
so the flag ends up cleared; a `separationFinished` runs
`handleFinalResult`. -/
def sepFileStep (featureName : String) (outcome : String → FileOutcome)
    (st : AsyncState) (audioPath : String) : AsyncState :=
  match outcome audioPath with
  | .hardFail firstError laterErrors =>
    { st with
      isProcessing := false
      events := st.events ++
        (firstError :: laterErrors).map SepEvent.errorEvent }
  | .separated saveOk => handleFinalResult audioPath featureName saveOk st

/-- `SeparationWorker::processFile` (separationworker.cpp:193-198) together
with the connected `AsyncProcessor` handlers: every mixture in the list is
processed in order, regardless of earlier failures. -/
def processFileJob (featureName : String) (outcome : String → FileOutcome)
    (filePaths : List String) (st : AsyncState) : AsyncState :=
  filePaths.foldl (sepFileStep featureName outcome) st

/-- `AsyncProcessor::startAudioSeparation` (asyncprocessor.cpp:195-218): a
submission while busy returns immediately (neither started nor queued);
otherwise the busy flag is set and the separation job runs. -/
def startAudioSeparation (featureName : String) (outcome : String → FileOutcome)
    (filePaths : List String) (st : AsyncState) : AsyncState :=
  if st.isProcessing then st
  else processFileJob featureName outcome filePaths { st with isProcessing := true }

/-- `AsyncProcessor::startFeatureGeneration` (asyncprocessor.cpp:166-188)
with the connected `HTSATWorker` handlers (asyncprocessor.cpp:55-97): a
submission while busy returns immediately; otherwise the job runs to a
single terminal event — worker error, save failure, or success — clearing
the busy flag. `jobResult` is `none` for a worker error and `some saveOk`
for a finished embedding whose save succeeds or fails. -/
def startFeatureGeneration (featurePath : String) (jobResult : Option Bool)
    (st : AsyncState) : AsyncState :=
  if st.isProcessing then st
  else
    match jobResult with
    | none =>
      { st with
        isProcessing := false
        events := st.events ++ [SepEvent.errorEvent "feature generation failed"] }
    | some false =>
      { st with
        isProcessing := false
        events := st.events ++ [SepEvent.errorEvent "Failed to save embedding file"] }
    | some true =>
      { st with
        isProcessing := false
        written := st.written ++ [featurePath]
        events := st.events ++ [SepEvent.finishedEvent [featurePath]] }

/-- `AsyncProcessor::isProcessing` (asyncprocessor.cpp:224-227). -/
def isProcessing (st : AsyncState) : Bool := st.isProcessing

/-! ## Feature loading in the separation worker
(SeparationWorker::loadFeature, separationworker.cpp:32-70) -/

/-- `SeparationWorker::loadFeature` on the parsed tokens of the feature
file (`content.split(' ', Qt::SkipEmptyParts)`, each token parsed with
`toFloat`; `none` marks an unparsable token).  Any unparsable token or an
empty token list is an error; otherwise the values become a tensor of
shape `(1, size)` — with **no** check of `size` against 2048. -/
def loadFeature (tokens : List (Option ℚ)) : Option (List (List ℚ)) :=
  if tokens.all Option.isSome then
    let values := tokens.filterMap id
    if values.isEmpty then none else some [values]
  else none

/-- The condition-tensor validation of `SeparationWorker::processChunk`
(separationworker.cpp:86-89): `condition.dim() == 2` (inherent in the
row-list model) and `condition.size(0) == 1`; the row length (the
embedding dimension) is not checked here. -/
def processChunkCondAccepts (condition : List (List ℚ)) : Bool :=
  condition.length = 1

/-- The condition part of `ZeroShotASPFeatureExtractor::validateInput`
(zero_shot_asp_feature_extractor.cpp:246-260): non-empty, rank 2
(inherent), and embedding dimension exactly `EXPECTED_CONDITION_DIM`. -/
def validateInputCondition (condition : List (List ℚ)) : Bool :=
  !(condition.headD []).isEmpty && (condition.headD []).length = EMBEDDING_DIM

/-- The embedding-size gate of
`ResourceManager::processAndSaveSeparatedChunks`
(resourcemanager.cpp:726-729): an embedding whose parsed size differs from
2048 aborts the file before any chunk is formed. -/
def rmEmbeddingAccepted (embedding : List ℚ) : Bool :=
  embedding.length = 2048

/-! ## Worker-side filesystem effects (claim C10) -/

/-- A filesystem effect performed by the separation worker itself. -/
inductive FsEffect where
  | writeFile (path : String) (ok : Bool)
  | deleteFile (path : String)
deriving DecidableEq

/-- `SeparationWorker::processSingleFile` (mono path) with its filesystem
effects: the only worker-side effect is
`AudioPreprocessUtils::saveToWav(waveform, TEMP_SEGMENTS_DIR + "/mono.wav")`
(separationworker.cpp:259), executed before chunking with its return value
discarded (`monoSaveOk` is the write's outcome); nothing is deleted. -/
def processSingleFileFx (sep : List ℚ → List ℚ) (monoSaveOk : Bool)
    (w : List ℚ) : List FsEffect × Option OlaOut :=
  ([FsEffect.writeFile (TEMP_SEGMENTS_DIR ++ "/mono.wav") monoSaveOk],
   processSingleFileCore sep w)

/-- `SeparationWorker::processSingleFileStereo` with its filesystem
effects: the stereo path performs no worker-side filesystem effect. -/
def processSingleFileStereoFx (sep : List ℚ → List ℚ) (w : List (ℚ × ℚ)) :
    List FsEffect × Option (ℕ × (ℕ → ℚ × ℚ)) :=
  ([], processSingleFileStereoCore sep w)

/-! ## Lemmas: the overlap-add loop as a pointwise sum -/

theorem olaFold_enumFrom (chunkSize step fade n : ℕ) (chunks : List (List ℚ)) :
    ∀ (j : ℕ) (acc : (ℕ → ℚ) × (ℕ → ℚ)),
      ((List.enumFrom j chunks).foldl (olaStep chunkSize step fade) acc).1 n
          = acc.1 n + ∑ i ∈ Finset.range chunks.length,
              (if (j + i) * step ≤ n ∧ n < (j + i) * step + chunkSize then
                (chunks.getD i []).getD (n - (j + i) * step) 0 *
                  windowAt chunkSize fade (n - (j + i) * step)
              else 0) ∧
      ((List.enumFrom j chunks).foldl (olaStep chunkSize step fade) acc).2 n
          = acc.2 n + ∑ i ∈ Finset.range chunks.length,
              (if (j + i) * step ≤ n ∧ n < (j + i) * step + chunkSize then
                windowAt chunkSize fade (n - (j + i) * step)
              else 0) := by
  induction chunks with
  | nil => intro j acc; simp
  | cons c cs ih =>
    intro j acc
    obtain ⟨ih1, ih2⟩ := ih (j + 1) (olaStep chunkSize step fade acc (j, c))
    have hidx : ∀ i : ℕ, j + 1 + i = j + (i + 1) := fun i => by omega
    constructor
    · rw [List.enumFrom, List.foldl_cons, ih1]
      simp only [List.length_cons]
      rw [Finset.sum_range_succ']
      simp only [hidx, List.getD_cons_succ, List.getD_cons_zero, Nat.add_zero]
      by_cases hP : j * step ≤ n ∧ n < j * step + chunkSize
      · simp only [olaStep, hP, if_pos, and_self, ite_true]; ring
      · simp only [olaStep, hP, ite_false]; ring
    · rw [List.enumFrom, List.foldl_cons, ih2]
      simp only [List.length_cons]
      rw [Finset.sum_range_succ']
      simp only [hidx, List.getD_cons_succ, List.getD_cons_zero, Nat.add_zero]
      by_cases hP : j * step ≤ n ∧ n < j * step + chunkSize
      · simp only [olaStep, hP, if_pos, and_self, ite_true]; ring
      · simp only [olaStep, hP, ite_false]; ring

theorem olaFold_fst (chunkSize step fade : ℕ) (chunks : List (List ℚ)) (n : ℕ) :
    (olaFold chunkSize step fade chunks).1 n
      = ∑ i ∈ Finset.range chunks.length,
          (if i * step ≤ n ∧ n < i * step + chunkSize then
            (chunks.getD i []).getD (n - i * step) 0 *
              windowAt chunkSize fade (n - i * step)
          else 0) := by
  have h := (olaFold_enumFrom chunkSize step fade n chunks 0 (fun _ => 0, fun _ => 0)).1
  simpa [olaFold, List.enum] using h

theorem olaFold_snd (chunkSize step fade : ℕ) (chunks : List (List ℚ)) (n : ℕ) :
    (olaFold chunkSize step fade chunks).2 n
      = ∑ i ∈ Finset.range chunks.length,
          (if i * step ≤ n ∧ n < i * step + chunkSize then
            windowAt chunkSize fade (n - i * step)
          else 0) := by
  have h := (olaFold_enumFrom chunkSize step fade n chunks 0 (fun _ => 0, fun _ => 0)).2
  simpa [olaFold, List.enum] using h

/-! ## Lemmas: chunking -/

theorem chunkStartsFrom_of_lt (L pos : ℕ) (h : pos < L) :
    chunkStartsFrom L pos = pos :: chunkStartsFrom L (pos + STEP) := by
  rw [chunkStartsFrom]
  simp only [h, dite_true]

theorem chunkStartsFrom_of_ge (L pos : ℕ) (h : ¬ pos < L) :
    chunkStartsFrom L pos = [] := by
  rw [chunkStartsFrom]
  simp only [h, dite_false]

theorem chunkStartsFrom_le (L pos : ℕ) :
    L ≤ STEP * (chunkStartsFrom L pos).length + pos := by
  have hS : 1 ≤ STEP := by decide
  have main : ∀ m pos, L - pos ≤ m →
      L ≤ STEP * (chunkStartsFrom L pos).length + pos := by
    intro m
    induction m with
    | zero =>
      intro pos hp
      have h : ¬ pos < L := by omega
      rw [chunkStartsFrom_of_ge L pos h]
      simp only [List.length_nil, Nat.mul_zero, Nat.zero_add]
      omega
    | succ m ih =>
      intro pos hp
      by_cases h : pos < L
      · rw [chunkStartsFrom_of_lt L pos h, List.length_cons, Nat.mul_succ]
        have hrec := ih (pos + STEP) (by omega)
        omega
      · rw [chunkStartsFrom_of_ge L pos h]
        simp only [List.length_nil, Nat.mul_zero, Nat.zero_add]
        omega
  exact main (L - pos) pos le_rfl

theorem chunkStartsFrom_mem (L pos p : ℕ) (hp : p ∈ chunkStartsFrom L pos) :
    p < L := by
  have hS : 1 ≤ STEP := by decide
  have main : ∀ m pos, L - pos ≤ m → p ∈ chunkStartsFrom L pos → p < L := by
    intro m
    induction m with
    | zero =>
      intro pos hb hmem
      have h : ¬ pos < L := by omega
      rw [chunkStartsFrom_of_ge L pos h] at hmem
      simp at hmem
    | succ m ih =>
      intro pos hb hmem
      by_cases h : pos < L
      · rw [chunkStartsFrom_of_lt L pos h] at hmem
        rcases List.mem_cons.mp hmem with rfl | hmem
        · exact h
        · exact ih (pos + STEP) (by omega) hmem
      · rw [chunkStartsFrom_of_ge L pos h] at hmem
        simp at hmem
  exact main (L - pos) pos le_rfl hp

theorem chunkStarts_ne_nil (L : ℕ) (hL : 0 < L) : chunkStarts L ≠ [] := by
  rw [chunkStarts, chunkStartsFrom_of_lt L 0 hL]
  simp

theorem chunkStarts_le (L : ℕ) : L ≤ STEP * (chunkStarts L).length := by
  have := chunkStartsFrom_le L 0
  simpa [chunkStarts] using this

theorem makeChunk_length (w : List ℚ) (pos : ℕ) (h : pos < w.length) :
    (makeChunk w pos).length = CLIP := by
  rw [makeChunk]
  by_cases hc : pos + CLIP ≤ w.length
  · simp only [hc, ite_true, List.length_take, List.length_drop]
    omega
  · simp only [hc, ite_false, List.length_append, List.length_drop,
      List.length_replicate]
    omega

theorem processedChunks_length (sep : List ℚ → List ℚ) (w : List ℚ) :
    (processedChunks sep w).length = (chunkStarts w.length).length := by
  simp [processedChunks]

theorem processedChunks_all_clip (sep : List ℚ → List ℚ)
    (hsep : ∀ c, (sep c).length = c.length) (w : List ℚ) :
    ∀ c ∈ processedChunks sep w, c.length = CLIP := by
  intro c hc
  simp only [processedChunks, List.mem_map] at hc
  obtain ⟨pos, hpos, rfl⟩ := hc
  rw [hsep]
  exact makeChunk_length w pos (chunkStartsFrom_mem _ _ _ hpos)

theorem processedChunks_ne_nil (sep : List ℚ → List ℚ) (w : List ℚ)
    (hw : w ≠ []) : processedChunks sep w ≠ [] := by
  have h0 : 0 < w.length := List.length_pos.mpr hw
  simp only [processedChunks, ne_eq, List.map_eq_nil_iff]
  exact chunkStarts_ne_nil _ h0

/-! ## Lemmas: the overlap-add result of the pipeline -/

theorem doOverlapAdd_eq (chunks : List (List ℚ)) (hne : chunks ≠ [])
    (hlen : ∀ c ∈ chunks, c.length = CLIP) :
    doOverlapAdd chunks = some
      { len := STEP * (chunks.length - 1) + CLIP
        val := fun n => (olaFold CLIP STEP FADE chunks).1 n /
          (if (olaFold CLIP STEP FADE chunks).2 n = 0 then 1
           else (olaFold CLIP STEP FADE chunks).2 n) } := by
  obtain ⟨c, cs, rfl⟩ : ∃ c cs, chunks = c :: cs := by
    cases chunks with
    | nil => exact absurd rfl hne
    | cons c cs => exact ⟨c, cs, rfl⟩
  have hc : c.length = CLIP := hlen c (List.mem_cons_self c cs)
  have hstep : CLIP / 2 = STEP := by decide
  have hall : ((c :: cs).all (fun d => d.length = CLIP)) = true := by
    rw [List.all_eq_true]
    intro d hd
    simp [hlen d hd]
  simp only [doOverlapAdd, hc, hstep, hall, if_true]
  rfl

theorem pipeline_ola (sep : List ℚ → List ℚ)
    (hsep : ∀ c, (sep c).length = c.length) (w : List ℚ) (hw : w ≠ []) :
    doOverlapAdd (processedChunks sep w) = some
      { len := STEP * ((chunkStarts w.length).length - 1) + CLIP
        val := fun n => (olaFold CLIP STEP FADE (processedChunks sep w)).1 n /
          (if (olaFold CLIP STEP FADE (processedChunks sep w)).2 n = 0 then 1
           else (olaFold CLIP STEP FADE (processedChunks sep w)).2 n) }
    ∧ w.length < STEP * ((chunkStarts w.length).length - 1) + CLIP := by
  have heq := doOverlapAdd_eq (processedChunks sep w)
    (processedChunks_ne_nil sep w hw) (processedChunks_all_clip sep hsep w)
  rw [processedChunks_length] at heq
  refine ⟨heq, ?_⟩
  have hN : 1 ≤ (chunkStarts w.length).length := by
    have := chunkStarts_ne_nil w.length (List.length_pos.mpr hw)
    cases h : chunkStarts w.length with
    | nil => exact absurd h this
    | cons a l => simp [h]
  have hle := chunkStarts_le w.length
  have hS : STEP = 160000 := rfl
  have hC : CLIP = 320000 := rfl
  rw [hS] at hle ⊢
  rw [hC]
  omega

/-! ## Claim C1 -/

/-- C1: for every mixture waveform with frame count `L` on which the
separation pipeline succeeds (the separator honouring its contract of
preserving each chunk's temporal extent), the emitted result has exactly
`L` frames and the input's channel count once normalized by the WAV
writer: a mono input yields a mono result of `L` frames, and a stereo
input yields a stereo result of `L` frames whose channel 0 equals the mono
pipeline's output on the left channel. -/
theorem C1_result_shape (sep : List ℚ → List ℚ)
    (hsep : ∀ c, (sep c).length = c.length)
    (w : List ℚ) (hw : w ≠ []) (ws : List (ℚ × ℚ)) (hws : ws ≠ []) :
    (∃ o, processSingleFileCore sep w = some o ∧ o.len = w.length ∧
       normalizeTensorShape (monoEmittedShape o) = some (w.length, 1)) ∧
    (∃ r, processSingleFileStereoCore sep ws = some r ∧ r.1 = ws.length ∧
       normalizeTensorShape (stereoEmittedShape r) = some (ws.length, 2) ∧
       ∃ ol, processSingleFileCore sep (ws.map Prod.fst) = some ol ∧
         ∀ n, n < ws.length → (r.2 n).1 = ol.val n) := by
  constructor
  · obtain ⟨heq, hlt⟩ := pipeline_ola sep hsep w hw
    simp only [processSingleFileCore, heq]
    rw [if_pos hlt]
    exact ⟨_, rfl, rfl, by simp [normalizeTensorShape, monoEmittedShape]⟩
  · have hwl : ws.map Prod.fst ≠ [] := by
      simpa [List.map_eq_nil_iff] using hws
    have hwr : ws.map Prod.snd ≠ [] := by
      simpa [List.map_eq_nil_iff] using hws
    obtain ⟨heqL, hltL⟩ := pipeline_ola sep hsep (ws.map Prod.fst) hwl
    obtain ⟨heqR, hltR⟩ := pipeline_ola sep hsep (ws.map Prod.snd) hwr
    simp only [List.length_map] at heqL hltL heqR hltR
    have hchL : processChannel sep (ws.map Prod.fst) = some
        { len := ws.length
          val := fun n =>
            (olaFold CLIP STEP FADE (processedChunks sep (ws.map Prod.fst))).1 n /
              (if (olaFold CLIP STEP FADE (processedChunks sep (ws.map Prod.fst))).2 n = 0
               then 1
               else (olaFold CLIP STEP FADE (processedChunks sep (ws.map Prod.fst))).2 n) } := by
      simp only [processChannel, heqL, List.length_map]
      rw [if_pos hltL]
    have hchR : processChannel sep (ws.map Prod.snd) = some
        { len := ws.length
          val := fun n =>
            (olaFold CLIP STEP FADE (processedChunks sep (ws.map Prod.snd))).1 n /
              (if (olaFold CLIP STEP FADE (processedChunks sep (ws.map Prod.snd))).2 n = 0
               then 1
               else (olaFold CLIP STEP FADE (processedChunks sep (ws.map Prod.snd))).2 n) } := by
      simp only [processChannel, heqR, List.length_map]
      rw [if_pos hltR]
    simp only [processSingleFileStereoCore, hchL, hchR]
    rw [if_neg (lt_irrefl ws.length)]
    refine ⟨_, rfl, rfl, by simp [normalizeTensorShape, stereoEmittedShape], ?_⟩
    refine ⟨{ len := ws.length
              val := fun n =>
                (olaFold CLIP STEP FADE (processedChunks sep (ws.map Prod.fst))).1 n /
                  (if (olaFold CLIP STEP FADE (processedChunks sep (ws.map Prod.fst))).2 n = 0
                   then 1
                   else (olaFold CLIP STEP FADE (processedChunks sep (ws.map Prod.fst))).2 n) },
           ?_, ?_⟩
    · simp only [processSingleFileCore, heqL, List.length_map]
      rw [if_pos hltL]
    · intro n _
      rfl

/-- Witness for C1 at the identity separator on concrete one-frame inputs. -/
theorem C1_result_shape_witness :
    (∀ c : List ℚ, (id c).length = c.length) ∧
    ([(0 : ℚ)] ≠ [] ∧ [((0 : ℚ), (0 : ℚ))] ≠ []) ∧
    ((∃ o, processSingleFileCore id [(0 : ℚ)] = some o ∧
        o.len = [(0 : ℚ)].length ∧
        normalizeTensorShape (monoEmittedShape o) = some ([(0 : ℚ)].length, 1)) ∧
     (∃ r, processSingleFileStereoCore id [((0 : ℚ), (0 : ℚ))] = some r ∧
        r.1 = [((0 : ℚ), (0 : ℚ))].length ∧
        normalizeTensorShape (stereoEmittedShape r) =
          some ([((0 : ℚ), (0 : ℚ))].length, 2) ∧
        ∃ ol, processSingleFileCore id ([((0 : ℚ), (0 : ℚ))].map Prod.fst) = some ol ∧
          ∀ n, n < [((0 : ℚ), (0 : ℚ))].length → (r.2 n).1 = ol.val n)) :=
  ⟨fun _ => rfl, ⟨by simp, by simp⟩,
   C1_result_shape id (fun _ => rfl) [(0 : ℚ)] (by simp) [((0 : ℚ), (0 : ℚ))] (by simp)⟩

/-! ## Claim C2 -/

theorem windowAt_eq_specWindow (k : ℕ) :
    windowAt CLIP FADE k = specWindow k := by
  have hF : ((FADE : ℕ) : ℚ) = 160000 := by norm_num [FADE]
  have hC : ((CLIP : ℕ) : ℚ) = 320000 := by norm_num [CLIP]
  have hCF : CLIP - FADE = 160000 := by decide
  have hFk : FADE = 160000 := rfl
  have hCk : CLIP = 320000 := rfl
  have hd : ((FADE : ℕ) : ℚ) - 1 ≠ 0 := by rw [hF]; norm_num
  have hF1 : ¬ (FADE = 1) := by decide
  rw [windowAt, specWindow, if_pos (by decide : (0 : ℕ) < FADE)]
  by_cases h2 : CLIP - FADE ≤ k
  · have h3 : ¬ k < FADE := by omega
    rw [if_pos h2, if_neg h3, if_pos h2, linspace, if_neg hF1]
    have hk' : ((k - (CLIP - FADE) : ℕ) : ℚ) = (k : ℚ) - 160000 := by
      rw [hCF]
      rw [hCF] at h2
      push_cast [Nat.cast_sub h2]
      ring
    rw [hk', hF, hC]
    have h160 : (159999 : ℚ) ≠ 0 := by norm_num
    field_simp
    ring
  · have h3 : k < FADE := by omega
    rw [if_neg h2, if_pos h3, if_pos h3, linspace, if_neg hF1]
    ring

/-- C2: on every non-empty list of CLIP-sample separated chunks, the
source's `doOverlapAdd` equals the reference overlap-add of the spec: the
output length is `STEP·(N−1) + CLIP`, and every sample is the windowed
chunk sum divided by the window-weight accumulator with zero weights
replaced by one. -/
theorem C2_overlap_add_matches_spec (chunks : List (List ℚ)) (hne : chunks ≠ [])
    (hlen : ∀ c ∈ chunks, c.length = CLIP) :
    ∃ o, doOverlapAdd chunks = some o ∧ o.len = specOlaLen chunks.length ∧
      ∀ n, o.val n = specOlaVal chunks n := by
  refine ⟨_, doOverlapAdd_eq chunks hne hlen, rfl, ?_⟩
  intro n
  have h1 : (olaFold CLIP STEP FADE chunks).1 n = specOut chunks n := by
    rw [olaFold_fst, specOut]
    refine Finset.sum_congr rfl ?_
    intro i _
    by_cases hcov : i * STEP ≤ n ∧ n < i * STEP + CLIP
    · rw [if_pos hcov, if_pos hcov,
        windowAt_eq_specWindow (n - i * STEP)]
    · rw [if_neg hcov, if_neg hcov]
  have h2 : (olaFold CLIP STEP FADE chunks).2 n = specWsum chunks.length n := by
    rw [olaFold_snd, specWsum]
    refine Finset.sum_congr rfl ?_
    intro i _
    by_cases hcov : i * STEP ≤ n ∧ n < i * STEP + CLIP
    · rw [if_pos hcov, if_pos hcov,
        windowAt_eq_specWindow (n - i * STEP)]
    · rw [if_neg hcov, if_neg hcov]
  show (olaFold CLIP STEP FADE chunks).1 n /
      (if (olaFold CLIP STEP FADE chunks).2 n = 0 then 1
       else (olaFold CLIP STEP FADE chunks).2 n) = specOlaVal chunks n
  rw [h1, h2, specOlaVal]

/-- Witness for C2 on a single all-zero chunk. -/
theorem C2_overlap_add_matches_spec_witness :
    ([List.replicate CLIP (0 : ℚ)] ≠ [] ∧
      ∀ c ∈ [List.replicate CLIP (0 : ℚ)], c.length = CLIP) ∧
    (∃ o, doOverlapAdd [List.replicate CLIP (0 : ℚ)] = some o ∧
      o.len = specOlaLen [List.replicate CLIP (0 : ℚ)].length ∧
      ∀ n, o.val n = specOlaVal [List.replicate CLIP (0 : ℚ)] n) :=
  ⟨⟨by simp, by simp⟩,
   C2_overlap_add_matches_spec [List.replicate CLIP (0 : ℚ)] (by simp) (by simp)⟩

/-! ## Claim C8 -/

theorem windowAt_nonneg (k : ℕ) (hk : k < 320000) :
    0 ≤ windowAt 320000 160000 k := by
  rw [windowAt, if_pos (by norm_num : (0 : ℕ) < 160000)]
  by_cases h2 : 320000 - 160000 ≤ k
  · rw [if_pos h2, linspace, if_neg (by norm_num : ¬ (160000 = 1))]
    have hub : ((k - (320000 - 160000) : ℕ) : ℚ) ≤ 159999 := by
      have h : (k - (320000 - 160000) : ℕ) ≤ 159999 := by omega
      exact_mod_cast h
    have h160 : ((160000 : ℕ) : ℚ) - 1 = 159999 := by norm_num
    rw [h160]
    have hdiv : ((k - (320000 - 160000) : ℕ) : ℚ) / 159999 ≤ 1 :=
      (div_le_one (by norm_num)).mpr hub
    have heq : (1 : ℚ) + (0 - 1) * ((k - (320000 - 160000) : ℕ) : ℚ) / 159999
        = 1 - ((k - (320000 - 160000) : ℕ) : ℚ) / 159999 := by ring
    rw [heq]
    linarith
  · rw [if_neg h2]
    by_cases h3 : k < 160000
    · rw [if_pos h3, linspace, if_neg (by norm_num : ¬ (160000 = 1))]
      have h160 : ((160000 : ℕ) : ℚ) - 1 = 159999 := by norm_num
      rw [h160]
      have heq : (0 : ℚ) + (1 - 0) * (k : ℚ) / 159999 = (k : ℚ) / 159999 := by
        ring
      rw [heq]
      exact div_nonneg (Nat.cast_nonneg k) (by norm_num)
    · rw [if_neg h3]
      norm_num

theorem monoWsum_eq (sep : List ℚ → List ℚ)
    (hsep : ∀ c, (sep c).length = c.length) (w : List ℚ) (hw : w ≠ []) (n : ℕ) :
    monoWsum sep w n = ∑ i ∈ Finset.range (chunkStarts w.length).length,
      (if i * STEP ≤ n ∧ n < i * STEP + CLIP then
        windowAt CLIP STEP (n - i * STEP)
      else 0) := by
  obtain ⟨c, cs, hcc⟩ : ∃ c cs, processedChunks sep w = c :: cs := by
    cases h : processedChunks sep w with
    | nil => exact absurd h (processedChunks_ne_nil sep w hw)
    | cons c cs => exact ⟨c, cs, rfl⟩
  have hc : c.length = CLIP :=
    processedChunks_all_clip sep hsep w c (hcc ▸ List.mem_cons_self c cs)
  have hstep : CLIP / 2 = STEP := by decide
  have hlen : (c :: cs).length = (chunkStarts w.length).length := by
    rw [← hcc, processedChunks_length]
  simp only [monoWsum, hcc, hc, hstep]
  rw [olaFold_snd, hlen]

theorem wsum_ge_one (N n : ℕ) (hN : 1 ≤ N) (hfade : FADE - 1 ≤ n)
    (hn : n < STEP * N) :
    1 ≤ ∑ i ∈ Finset.range N,
      (if i * STEP ≤ n ∧ n < i * STEP + CLIP then
        windowAt CLIP STEP (n - i * STEP)
      else 0) := by
  simp only [show STEP = 160000 from rfl, show CLIP = 320000 from rfl,
    show FADE = 160000 from rfl] at hfade hn ⊢
  set f : ℕ → ℚ := fun i =>
    if i * 160000 ≤ n ∧ n < i * 160000 + 320000 then
      windowAt 320000 160000 (n - i * 160000)
    else 0 with hf
  have hnonneg : ∀ i ∈ Finset.range N, 0 ≤ f i := by
    intro i _
    simp only [hf]
    by_cases hc : i * 160000 ≤ n ∧ n < i * 160000 + 320000
    · rw [if_pos hc]
      exact windowAt_nonneg _ (by omega)
    · rw [if_neg hc]
  have hqr := Nat.div_add_mod n 160000
  set q := n / 160000 with hqdef
  set r := n % 160000 with hrdef
  have hr : r < 160000 := Nat.mod_lt n (by norm_num)
  have hqN : q < N := by
    by_contra hcon
    push_neg at hcon
    have : 160000 * N ≤ 160000 * q := Nat.mul_le_mul_left 160000 hcon
    omega
  by_cases hq0 : q = 0
  · have hn' : n = 159999 := by omega
    have hf0 : f 0 = 1 := by
      simp only [hf]
      have hcov : 0 * 160000 ≤ n ∧ n < 0 * 160000 + 320000 := by omega
      rw [if_pos hcov, hn']
      norm_num [windowAt, linspace]
    calc (1 : ℚ) = f 0 := hf0.symm
    _ ≤ ∑ i ∈ Finset.range N, f i :=
        Finset.single_le_sum hnonneg (Finset.mem_range.mpr (by omega))
  · have hq1 : 1 ≤ q := Nat.one_le_iff_ne_zero.mpr hq0
    have hfq : f q = (r : ℚ) / 159999 := by
      simp only [hf]
      have hcov : q * 160000 ≤ n ∧ n < q * 160000 + 320000 := by
        constructor <;> omega
      rw [if_pos hcov]
      have hoff : n - q * 160000 = r := by omega
      rw [hoff, windowAt, if_pos (by norm_num : (0 : ℕ) < 160000),
        if_neg (by omega : ¬ (320000 - 160000 ≤ r)), if_pos hr,
        linspace, if_neg (by norm_num : ¬ (160000 = 1))]
      have h160 : ((160000 : ℕ) : ℚ) - 1 = 159999 := by norm_num
      rw [h160]
      ring
    have hfq1 : f (q - 1) = 1 - (r : ℚ) / 159999 := by
      simp only [hf]
      have hcov : (q - 1) * 160000 ≤ n ∧ n < (q - 1) * 160000 + 320000 := by
        constructor <;> omega
      rw [if_pos hcov]
      have hoff : n - (q - 1) * 160000 = r + 160000 := by omega
      rw [hoff, windowAt, if_pos (by norm_num : (0 : ℕ) < 160000),
        if_pos (by omega : 320000 - 160000 ≤ r + 160000),
        linspace, if_neg (by norm_num : ¬ (160000 = 1))]
      have hoff2 : r + 160000 - (320000 - 160000) = r := by omega
      rw [hoff2]
      have h160 : ((160000 : ℕ) : ℚ) - 1 = 159999 := by norm_num
      rw [h160]
      ring
    have hsub : ({q - 1, q} : Finset ℕ) ⊆ Finset.range N := by
      intro x hx
      rcases Finset.mem_insert.mp hx with rfl | hx
      · exact Finset.mem_range.mpr (by omega)
      · rw [Finset.mem_singleton.mp hx]
        exact Finset.mem_range.mpr hqN
    calc (1 : ℚ) = f (q - 1) + f q := by rw [hfq, hfq1]; ring
    _ = ∑ i ∈ ({q - 1, q} : Finset ℕ), f i :=
        (Finset.sum_pair (by omega : q - 1 ≠ q)).symm
    _ ≤ ∑ i ∈ Finset.range N, f i :=
        Finset.sum_le_sum_of_subset_of_nonneg hsub
          (fun i hi _ => hnonneg i hi)

/-- C8 as amended: on the mono separation path the per-sample weight
accumulator is at least 1 for every sample index in `[FADE − 1, L)`; below
`FADE − 1` the fade-in leaves weights under 1 (with weight 0 at sample 0),
refuting the claim's range `[0, L)`. -/
theorem C8_weight_amended (sep : List ℚ → List ℚ)
    (hsep : ∀ c, (sep c).length = c.length) (w : List ℚ) (hw : w ≠ [])
    (n : ℕ) (h1 : FADE - 1 ≤ n) (h2 : n < w.length) :
    1 ≤ monoWsum sep w n := by
  rw [monoWsum_eq sep hsep w hw n]
  have hN : 1 ≤ (chunkStarts w.length).length := by
    cases h : chunkStarts w.length with
    | nil => exact absurd h (chunkStarts_ne_nil _ (List.length_pos.mpr hw))
    | cons a l => simp [h]
  have hn : n < STEP * (chunkStarts w.length).length := by
    have hle := chunkStarts_le w.length
    omega
  exact wsum_ge_one _ _ hN h1 hn

/-- Witness for the amended C8 at the identity separator on an all-zero
10-second waveform, at the first sample index of the covered range. -/
theorem C8_weight_amended_witness :
    ((∀ c : List ℚ, (id c).length = c.length) ∧
      List.replicate CLIP (0 : ℚ) ≠ [] ∧
      FADE - 1 ≤ 159999 ∧ 159999 < (List.replicate CLIP (0 : ℚ)).length) ∧
    1 ≤ monoWsum id (List.replicate CLIP (0 : ℚ)) 159999 :=
  ⟨⟨fun _ => rfl,
    List.ne_nil_of_length_pos (by rw [List.length_replicate]; decide),
    by decide,
    by rw [List.length_replicate]; decide⟩,
   C8_weight_amended id (fun _ => rfl) (List.replicate CLIP (0 : ℚ))
     (List.ne_nil_of_length_pos (by rw [List.length_replicate]; decide)) 159999
     (by decide) (by rw [List.length_replicate]; decide)⟩

/-- Counterexample to C8 as stated: for the one-sample mixture `[0]`
(frame count `L = 1`), sample index 0 lies in `[0, L)` but the weight
accumulator there is 0, not at least 1 — the fade-in window starts at 0. -/
theorem C8_counterexample :
    (0 : ℕ) < [(0 : ℚ)].length ∧ monoWsum id [(0 : ℚ)] 0 = 0 ∧
      ¬ (1 ≤ monoWsum id [(0 : ℚ)] 0) := by
  have h1 : chunkStarts 1 = [0] := by
    rw [chunkStarts, chunkStartsFrom_of_lt 1 0 (by norm_num),
      chunkStartsFrom_of_ge 1 (0 + STEP) (by decide)]
  have h2 : processedChunks id [(0 : ℚ)] = [makeChunk [(0 : ℚ)] 0] := by
    simp [processedChunks, h1]
  have h3 : (makeChunk [(0 : ℚ)] 0).length = CLIP :=
    makeChunk_length _ 0 (by simp)
  have hval : monoWsum id [(0 : ℚ)] 0 = 0 := by
    simp only [monoWsum, h2, h3, show CLIP / 2 = STEP from by decide]
    rw [olaFold_snd]
    simp only [List.length_singleton]
    rw [Finset.sum_range_one]
    rw [if_pos (by constructor <;> [omega; norm_num [STEP, CLIP]])]
    norm_num [windowAt, linspace, STEP, CLIP]
  refine ⟨by simp, hval, by rw [hval]; norm_num⟩

/-! ## Claim C10 -/

/-- C10: before chunking, the mono path writes the full preprocessed
waveform to the fixed path `temp_chunks/mono.wav` (overwriting any previous
run's file at that fixed path); the write's outcome is ignored (the
pipeline result does not depend on it), the worker never deletes anything,
the stereo path performs no such write, and the path differs from every
declared output path `separated_results/<base>_<feature>.wav`. -/
theorem C10_mono_temp_write (sep : List ℚ → List ℚ) (w : List ℚ)
    (ws : List (ℚ × ℚ)) (b b' : Bool) :
    FsEffect.writeFile (TEMP_SEGMENTS_DIR ++ "/mono.wav") b ∈
      (processSingleFileFx sep b w).1 ∧
    (processSingleFileFx sep b w).2 = (processSingleFileFx sep b' w).2 ∧
    (∀ p, FsEffect.deleteFile p ∉ (processSingleFileFx sep b w).1) ∧
    (∀ b'' p, FsEffect.writeFile p b'' ∉ (processSingleFileStereoFx sep ws).1) ∧
    (∀ audioPath featureName,
      sepOutputPath audioPath featureName ≠ TEMP_SEGMENTS_DIR ++ "/mono.wav") := by
  refine ⟨by simp [processSingleFileFx], rfl, ?_, ?_, ?_⟩
  · intro p
    simp [processSingleFileFx]
  · intro b'' p
    simp [processSingleFileStereoFx]
  · intro audioPath featureName h
    have hd := congrArg String.data h
    simp only [sepOutputPath, SEPARATED_RESULT_DIR, TEMP_SEGMENTS_DIR,
      String.data_append] at hd
    have h1 := congrArg List.head? hd
    simp only [List.head?_append] at h1
    simp at h1

/-! ## Claim C3 -/

theorem writeWavData_length (enc : ℚ → List ℕ) (henc : ∀ x, (enc x).length = 4)
    (samples : List ℚ) : (writeWavData enc samples).length = 4 * samples.length := by
  induction samples with
  | nil => simp [writeWavData]
  | cons a l ih =>
    rw [writeWavData, List.flatMap_cons, List.length_append]
    rw [writeWavData] at ih
    rw [ih, henc a, List.length_cons]
    ring

theorem interleave_length (frames channels : ℕ) (val : ℕ → ℕ → ℚ) :
    (interleave frames channels val).length = frames * channels := by
  induction frames with
  | zero => simp [interleave]
  | succ f ih =>
    rw [interleave, List.range_succ, List.flatMap_append, List.length_append]
    rw [interleave] at ih
    rw [ih]
    simp [Nat.succ_mul]

set_option maxHeartbeats 1600000 in
/-- C3 as amended: the separation-result writer
(`AudioSerializer::saveWavToFile`) emits 32-bit IEEE-float PCM — the fmt
chunk carries format code 3 and bits-per-sample 32, and the data chunk
holds `frames·channels·4` bytes of little-endian float32 samples with a
matching size field; the auxiliary writer `AudioPreprocessUtils::saveToWav`
instead requests 16-bit integer PCM (`SF_FORMAT_PCM_16`) from libsndfile,
so the claim does not hold of every WAV writer in the program. -/
theorem C3_float_header_amended (enc : ℚ → List ℕ)
    (henc : ∀ x, (enc x).length = 4) (shape : TShape) (val : ℕ → ℕ → ℚ)
    (frames channels : ℕ)
    (hnorm : normalizeTensorShape shape = some (frames, channels)) :
    ∃ bs, saveWavToFile enc shape val 32000 = some bs ∧
      bs = writeWavHeader channels 32000 (frames * channels) ++
        writeWavData enc (interleave frames channels val) ∧
      (bs.drop 20).take 2 = [3, 0] ∧
      (bs.drop 34).take 2 = [32, 0] ∧
      (bs.drop 40).take 4 = encLE 4 (frames * channels * 4) ∧
      (writeWavData enc (interleave frames channels val)).length
        = frames * channels * 4 ∧
      saveToWavFormat % 65536 = SF_FORMAT_PCM_16 ∧
      SF_FORMAT_PCM_16 ≠ SF_FORMAT_FLOAT := by
  refine ⟨_, ?_, rfl, rfl, rfl, rfl, ?_, by decide, by decide⟩
  · rw [saveWavToFile, hnorm]
  · rw [writeWavData_length enc henc, interleave_length]
    ring

/-- Witness for the amended C3 on a one-frame mono tensor with a trivial
4-byte sample encoder. -/
theorem C3_float_header_amended_witness :
    ((∀ x : ℚ, ((fun _ : ℚ => [0, 0, 0, 0]) x).length = 4) ∧
      normalizeTensorShape (TShape.d1 1) = some (1, 1)) ∧
    (∃ bs, saveWavToFile (fun _ : ℚ => [0, 0, 0, 0]) (TShape.d1 1)
        (fun _ _ => 0) 32000 = some bs ∧
      bs = writeWavHeader 1 32000 (1 * 1) ++
        writeWavData (fun _ : ℚ => [0, 0, 0, 0]) (interleave 1 1 (fun _ _ => 0)) ∧
      (bs.drop 20).take 2 = [3, 0] ∧
      (bs.drop 34).take 2 = [32, 0] ∧
      (bs.drop 40).take 4 = encLE 4 (1 * 1 * 4) ∧
      (writeWavData (fun _ : ℚ => [0, 0, 0, 0])
        (interleave 1 1 (fun _ _ => 0))).length = 1 * 1 * 4 ∧
      saveToWavFormat % 65536 = SF_FORMAT_PCM_16 ∧
      SF_FORMAT_PCM_16 ≠ SF_FORMAT_FLOAT) :=
  ⟨⟨fun _ => rfl, rfl⟩,
   C3_float_header_amended (fun _ : ℚ => [0, 0, 0, 0]) (fun _ => rfl)
     (TShape.d1 1) (fun _ _ => 0) 1 1 rfl⟩

/-- Counterexample to C3 as stated: the tensor `[0.5]` (one mono frame) is
accepted by the WAV writer `AudioPreprocessUtils::saveToWav`, yet that
writer opens the file with format word `SF_FORMAT_WAV | SF_FORMAT_PCM_16`,
whose subtype is 16-bit integer PCM, not 32-bit IEEE float. -/
theorem C3_counterexample :
    saveToWavAccepts (TShape.d1 1) 32000 = true ∧
    saveToWavFormat % 65536 = SF_FORMAT_PCM_16 ∧
    SF_FORMAT_PCM_16 ≠ SF_FORMAT_FLOAT := by
  refine ⟨by decide, by decide, by decide⟩

/-! ## Claim C4 -/

theorem filterMap_id_length_of_isSome (tokens : List (Option ℚ))
    (h : ∀ t ∈ tokens, t.isSome) :
    (tokens.filterMap id).length = tokens.length := by
  induction tokens with
  | nil => simp
  | cons t l ih =>
    obtain ⟨v, rfl⟩ := Option.isSome_iff_exists.mp (h t (List.mem_cons_self t l))
    simp only [List.filterMap_cons, id_eq, List.length_cons]
    rw [ih (fun t ht => h t (List.mem_cons_of_mem _ ht))]

/-- C4 as amended: `SeparationWorker::loadFeature` rejects a feature file
only when a token fails to parse or no token is present; a fully parsed
non-empty file of any size — 2048 or not — is accepted and shaped into a
`(1, size)` condition tensor, which the chunk-level validation of
`processChunk` also accepts (it checks only rank and batch size).  The
size-2048 check happens later, inside the separator's own input validation
(`ZeroShotASPFeatureExtractor::validateInput`), which rejects any other
embedding dimension; the `ResourceManager` separation path does reject a
mis-sized embedding before any chunk is formed. -/
theorem C4_feature_size_amended :
    (∀ tokens : List (Option ℚ), (∀ t ∈ tokens, t.isSome) → tokens ≠ [] →
      loadFeature tokens = some [tokens.filterMap id] ∧
      (tokens.filterMap id).length = tokens.length ∧
      processChunkCondAccepts [tokens.filterMap id] = true) ∧
    (∀ cond : List ℚ, cond.length ≠ EMBEDDING_DIM →
      validateInputCondition [cond] = false) ∧
    (∀ emb : List ℚ, emb.length ≠ 2048 → rmEmbeddingAccepted emb = false) := by
  refine ⟨?_, ?_, ?_⟩
  · intro tokens hsome hne
    have hall : tokens.all Option.isSome = true := by
      rw [List.all_eq_true]
      exact hsome
    have hlen := filterMap_id_length_of_isSome tokens hsome
    have hvne : ¬ (tokens.filterMap id).isEmpty = true := by
      rw [List.isEmpty_iff_length_eq_zero, hlen]
      exact fun h => hne (List.length_eq_zero.mp h)
    refine ⟨?_, hlen, by simp [processChunkCondAccepts]⟩
    rw [loadFeature]
    simp only [hall, if_true]
    rw [if_neg hvne]
  · intro cond h
    simp [validateInputCondition, h]
  · intro emb h
    simp [rmEmbeddingAccepted, h]

/-- Witness for the amended C4: a fully parsed 5-token feature file is
accepted by `loadFeature` and by `processChunk`'s condition check, while
the separator-side validation and the `ResourceManager` gate reject the
5-element embedding. -/
theorem C4_feature_size_amended_witness :
    ((∀ t ∈ List.replicate 5 (some (1 : ℚ)), t.isSome) ∧
      List.replicate 5 (some (1 : ℚ)) ≠ [] ∧
      (List.replicate 5 (1 : ℚ)).length ≠ EMBEDDING_DIM ∧
      (List.replicate 5 (1 : ℚ)).length ≠ 2048) ∧
    (loadFeature (List.replicate 5 (some (1 : ℚ))) =
        some [(List.replicate 5 (some (1 : ℚ))).filterMap id] ∧
      ((List.replicate 5 (some (1 : ℚ))).filterMap id).length =
        (List.replicate 5 (some (1 : ℚ))).length ∧
      processChunkCondAccepts [(List.replicate 5 (some (1 : ℚ))).filterMap id]
        = true) ∧
    validateInputCondition [List.replicate 5 (1 : ℚ)] = false ∧
    rmEmbeddingAccepted (List.replicate 5 (1 : ℚ)) = false :=
  ⟨⟨by decide, by decide, by decide, by decide⟩,
   C4_feature_size_amended.1 (List.replicate 5 (some (1 : ℚ))) (by decide)
     (by decide),
   C4_feature_size_amended.2.1 (List.replicate 5 (1 : ℚ)) (by decide),
   C4_feature_size_amended.2.2 (List.replicate 5 (1 : ℚ)) (by decide)⟩

/-- Counterexample to C4 as stated: a feature file parsing to 5 numeric
tokens (≠ 2048) is not rejected by the separation worker's embedding
reader — `loadFeature` returns a `(1, 5)` condition tensor — and
`processChunk` accepts that condition, so it is passed to the separation
model call rather than failing as `BadEmbedding` beforehand. -/
theorem C4_counterexample :
    (List.replicate 5 (some (1 : ℚ))).length ≠ 2048 ∧
    loadFeature (List.replicate 5 (some (1 : ℚ))) =
      some [List.replicate 5 (1 : ℚ)] ∧
    processChunkCondAccepts [List.replicate 5 (1 : ℚ)] = true := by
  refine ⟨by decide, by decide, by decide⟩

/-! ## Claim C5 -/

theorem foldl_zipWith_spec (d : ℕ) (l : List (List ℚ))
    (hl : ∀ e ∈ l, e.length = d) :
    ∀ acc : List ℚ, acc.length = d →
      (l.foldl (fun acc e => if e.length = d then acc.zipWith (· + ·) e else acc)
          acc).length = d ∧
      ∀ i, i < d →
        (l.foldl (fun acc e => if e.length = d then acc.zipWith (· + ·) e else acc)
            acc).getD i 0
          = acc.getD i 0 + (l.map (fun e => e.getD i 0)).sum := by
  induction l with
  | nil => intro acc hacc; simp [hacc]
  | cons e l ih =>
    intro acc hacc
    have he : e.length = d := hl e (List.mem_cons_self e l)
    have hstep : (if e.length = d then acc.zipWith (· + ·) e else acc)
        = acc.zipWith (· + ·) e := by rw [if_pos he]
    have hzlen : (acc.zipWith (· + ·) e).length = d := by
      rw [List.length_zipWith, hacc, he, Nat.min_self]
    obtain ⟨ih1, ih2⟩ := ih (fun x hx => hl x (List.mem_cons_of_mem _ hx))
      (acc.zipWith (· + ·) e) hzlen
    rw [List.foldl_cons, hstep]
    refine ⟨ih1, ?_⟩
    intro i hi
    rw [ih2 i hi, List.map_cons, List.sum_cons]
    have hz : (acc.zipWith (· + ·) e).getD i 0 = acc.getD i 0 + e.getD i 0 := by
      rw [List.getD_eq_getElem _ _ (by omega : i < (acc.zipWith (· + ·) e).length),
        List.getElem_zipWith,
        List.getD_eq_getElem _ _ (by omega : i < acc.length),
        List.getD_eq_getElem _ _ (by omega : i < e.length)]
    rw [hz]
    ring

theorem computeAverageEmbedding_spec (d : ℕ) (embs : List (List ℚ))
    (hne : embs ≠ []) (hd : ∀ e ∈ embs, e.length = d) (hdpos : 0 < d) :
    (computeAverageEmbedding embs).length = d ∧
    ∀ i, i < d → (computeAverageEmbedding embs).getD i 0
      = (embs.map (fun e => e.getD i 0)).sum / (embs.length : ℚ) := by
  obtain ⟨e0, rest, rfl⟩ : ∃ e0 rest, embs = e0 :: rest := by
    cases embs with
    | nil => exact absurd rfl hne
    | cons e0 rest => exact ⟨e0, rest, rfl⟩
  have he0 : e0.length = d := hd e0 (List.mem_cons_self e0 rest)
  obtain ⟨h1, h2⟩ := foldl_zipWith_spec d (e0 :: rest) hd
    (List.replicate d 0) (by rw [List.length_replicate])
  rw [computeAverageEmbedding]
  simp only [he0]
  rw [if_neg (show ¬ d = 0 by omega)]
  constructor
  · rw [List.length_map, h1]
  · intro i hi
    have hmaplen : i < ((e0 :: rest).foldl
        (fun acc e => if e.length = d then acc.zipWith (· + ·) e else acc)
        (List.replicate d 0)).length := by omega
    rw [List.getD_eq_getElem _ _ (by rw [List.length_map]; omega : i <
        (((e0 :: rest).foldl
          (fun acc e => if e.length = d then acc.zipWith (· + ·) e else acc)
          (List.replicate d 0)).map (fun x => x / ((e0 :: rest).length : ℚ))).length),
      List.getElem_map, ← List.getD_eq_getElem _ (0 : ℚ) hmaplen,
      h2 i hi,
      List.getD_eq_getElem _ (0 : ℚ) (by rw [List.length_replicate]; omega :
        i < (List.replicate d (0 : ℚ)).length),
      List.getElem_replicate]
    ring

/-- C5: for every feature-creation job whose successful query files all
yield embeddings of one positive dimension, the saved embedding is their
element-wise arithmetic mean (exact in the rational idealization of
float-32 arithmetic); a job with zero successful query files produces no
embedding (the worker emits an error and no feature file is written). -/
theorem C5_feature_mean {α : Type} (extract : α → Option (List ℚ))
    (filePaths : List α) (d : ℕ)
    (hne : processFilesAndCollectEmbeddings extract filePaths ≠ [])
    (hd : ∀ e ∈ processFilesAndCollectEmbeddings extract filePaths, e.length = d)
    (hdpos : 0 < d) :
    (∃ avg, generateFeatures extract filePaths = some avg ∧ avg.length = d ∧
      ∀ i, i < d → avg.getD i 0 =
        ((processFilesAndCollectEmbeddings extract filePaths).map
          (fun e => e.getD i 0)).sum /
        ((processFilesAndCollectEmbeddings extract filePaths).length : ℚ)) ∧
    (∀ files : List α, processFilesAndCollectEmbeddings extract files = [] →
      generateFeatures extract files = none) := by
  constructor
  · obtain ⟨hlen, hval⟩ := computeAverageEmbedding_spec d
      (processFilesAndCollectEmbeddings extract filePaths) hne hd hdpos
    have hfne : ¬ filePaths.isEmpty = true := by
      intro h
      rw [List.isEmpty_iff.mp h] at hne
      exact hne rfl
    have hce : ¬ (processFilesAndCollectEmbeddings extract filePaths).isEmpty
        = true := by
      intro h
      exact hne (List.isEmpty_iff.mp h)
    refine ⟨computeAverageEmbedding
      (processFilesAndCollectEmbeddings extract filePaths), ?_, hlen, hval⟩
    rw [generateFeatures, if_neg hfne, doGenerateAudioFeatures,
      if_neg hce]
    have hav : ¬ (computeAverageEmbedding
        (processFilesAndCollectEmbeddings extract filePaths)).isEmpty = true := by
      rw [List.isEmpty_iff_length_eq_zero, hlen]
      omega
    rw [if_neg hav]
  · intro files hzero
    by_cases hf : files.isEmpty
    · rw [generateFeatures, if_pos hf]
    · rw [generateFeatures, if_neg hf, doGenerateAudioFeatures, hzero]
      simp

/-- Witness for C5: two one-element embeddings `[2]` and `[4]` average to
`[3]`; an always-failing extractor produces no feature. -/
theorem C5_feature_mean_witness :
    (processFilesAndCollectEmbeddings
        (fun n : ℕ => if n = 0 then some [(2 : ℚ)] else some [(4 : ℚ)]) [0, 1] ≠ [] ∧
      (∀ e ∈ processFilesAndCollectEmbeddings
        (fun n : ℕ => if n = 0 then some [(2 : ℚ)] else some [(4 : ℚ)]) [0, 1],
        e.length = 1) ∧
      (0 : ℕ) < 1) ∧
    ((∃ avg, generateFeatures
        (fun n : ℕ => if n = 0 then some [(2 : ℚ)] else some [(4 : ℚ)]) [0, 1]
          = some avg ∧
      avg.length = 1 ∧
      ∀ i, i < 1 → avg.getD i 0 =
        ((processFilesAndCollectEmbeddings
          (fun n : ℕ => if n = 0 then some [(2 : ℚ)] else some [(4 : ℚ)])
          [0, 1]).map (fun e => e.getD i 0)).sum /
        ((processFilesAndCollectEmbeddings
          (fun n : ℕ => if n = 0 then some [(2 : ℚ)] else some [(4 : ℚ)])
          [0, 1]).length : ℚ)) ∧
    (∀ files : List ℕ, processFilesAndCollectEmbeddings
        (fun n : ℕ => if n = 0 then some [(2 : ℚ)] else some [(4 : ℚ)]) files = [] →
      generateFeatures
        (fun n : ℕ => if n = 0 then some [(2 : ℚ)] else some [(4 : ℚ)]) files
        = none)) :=
  ⟨⟨by decide, by decide, by decide⟩,
   C5_feature_mean (fun n : ℕ => if n = 0 then some [(2 : ℚ)] else some [(4 : ℚ)])
     [0, 1] 1 (by decide) (by decide) (by decide)⟩

/-! ## Claim C7 -/

/-- C7 as amended: a hard failure on one mixture aborts only that file —
every remaining mixture is still processed, and a failing file contributes
exactly the `Error` events the worker emitted for it (at least one,
sometimes two, whose messages need not mention the mixture's path) and no
`Finished` event and no written file; however, there is no single final
`Finished` carrying the successfully written paths: each file that reaches
the save step emits its own `Finished` event carrying that file's output
path whether or not the WAV write succeeded, while the set of files
actually written contains only the successful saves. -/
theorem C7_per_file_events_amended (featureName : String)
    (outcome : String → FileOutcome) (filePaths : List String)
    (st : AsyncState) :
    (processFileJob featureName outcome filePaths st).events = st.events ++
      filePaths.flatMap (fun f =>
        match outcome f with
        | .hardFail m ms => (m :: ms).map SepEvent.errorEvent
        | .separated _ => [SepEvent.finishedEvent [sepOutputPath f featureName]]) ∧
    (processFileJob featureName outcome filePaths st).written = st.written ++
      (filePaths.filter (fun f =>
        match outcome f with
        | .separated true => true
        | _ => false)).map (fun f => sepOutputPath f featureName) := by
  induction filePaths generalizing st with
  | nil => simp [processFileJob]
  | cons f fs ih =>
    rw [processFileJob, List.foldl_cons]
    cases hout : outcome f with
    | hardFail m ms =>
      have hstep : sepFileStep featureName outcome st f =
          { st with
            isProcessing := false
            events := st.events ++ (m :: ms).map SepEvent.errorEvent } := by
        rw [sepFileStep, hout]
      rw [hstep]
      obtain ⟨ih1, ih2⟩ := ih { st with
        isProcessing := false
        events := st.events ++ (m :: ms).map SepEvent.errorEvent }
      rw [processFileJob] at ih1 ih2
      refine ⟨?_, ?_⟩
      · rw [ih1]
        simp [List.flatMap_cons, hout, List.append_assoc]
      · rw [ih2]
        simp [List.filter_cons, hout]
    | separated saveOk =>
      have hstep : sepFileStep featureName outcome st f =
          handleFinalResult f featureName saveOk st := by
        rw [sepFileStep, hout]
      rw [hstep]
      obtain ⟨ih1, ih2⟩ := ih (handleFinalResult f featureName saveOk st)
      rw [processFileJob] at ih1 ih2
      refine ⟨?_, ?_⟩
      · rw [ih1, handleFinalResult]
        simp [List.flatMap_cons, hout, List.append_assoc]
      · rw [ih2, handleFinalResult]
        cases saveOk with
        | false => simp [List.filter_cons, hout]
        | true => simp [List.filter_cons, hout, List.append_assoc]

/-- Counterexample to C7 as stated: in a two-mixture job where `a.wav`'s
result tensor fails to save and `b.wav`'s saves, the job emits two
`Finished` events (not one final one), the failed-write path
`separated_results/a_F.wav` appears in a `Finished` payload, and only
`separated_results/b_F.wav` was actually written. -/
theorem C7_counterexample :
    (startAudioSeparation "F"
        (fun p => if p = "a.wav" then FileOutcome.separated false
                  else FileOutcome.separated true)
        ["a.wav", "b.wav"] ⟨false, [], []⟩).events
      = [SepEvent.finishedEvent ["separated_results/a_F.wav"],
         SepEvent.finishedEvent ["separated_results/b_F.wav"]] ∧
    (startAudioSeparation "F"
        (fun p => if p = "a.wav" then FileOutcome.separated false
                  else FileOutcome.separated true)
        ["a.wav", "b.wav"] ⟨false, [], []⟩).written
      = ["separated_results/b_F.wav"] := by
  refine ⟨by decide, by decide⟩

/-! ## Claim C9 -/

/-- C9 as amended: a feature or separation submission while the busy flag
is set returns with the orchestrator state unchanged — nothing is started
or queued — and `isProcessing()` returns the flag; but the flag is cleared
at every per-file terminal event of a separation job (each file's
`Finished` or `Error`), so after the first file of a multi-file job the
flag is already false while later files are still being processed; it is
false again at job end, and a feature job clears it at its single terminal
event. -/
theorem C9_busy_flag_amended (featureName : String)
    (outcome : String → FileOutcome) (filePaths : List String)
    (st : AsyncState) (featurePath : String) (jobResult : Option Bool) :
    (st.isProcessing = true →
      startAudioSeparation featureName outcome filePaths st = st) ∧
    (st.isProcessing = true →
      startFeatureGeneration featurePath jobResult st = st) ∧
    isProcessing st = st.isProcessing ∧
    (∀ f, (sepFileStep featureName outcome st f).isProcessing = false) ∧
    (filePaths ≠ [] →
      (processFileJob featureName outcome filePaths st).isProcessing = false) ∧
    (startFeatureGeneration featurePath jobResult
      ⟨false, st.events, st.written⟩).isProcessing = false := by
  refine ⟨?_, ?_, rfl, ?_, ?_, ?_⟩
  · intro h
    rw [startAudioSeparation, if_pos h]
  · intro h
    rw [startFeatureGeneration.eq_def, if_pos h]
  · intro f
    cases hout : outcome f with
    | hardFail m ms => rw [sepFileStep, hout]
    | separated saveOk => rw [sepFileStep, hout]; rfl
  · intro hne
    obtain ⟨f0, fs, rfl⟩ : ∃ f0 fs, filePaths = f0 :: fs := by
      cases filePaths with
      | nil => exact absurd rfl hne
      | cons a l => exact ⟨a, l, rfl⟩
    clear hne
    induction fs generalizing st f0 with
    | nil =>
      show (sepFileStep featureName outcome st f0).isProcessing = false
      cases hout : outcome f0 with
      | hardFail m ms => rw [sepFileStep, hout]
      | separated saveOk => rw [sepFileStep, hout]; rfl
    | cons g gs ih =>
      show (processFileJob featureName outcome (g :: gs)
        (sepFileStep featureName outcome st f0)).isProcessing = false
      exact ih _ _
  · cases jobResult with
    | none => rfl
    | some saveOk =>
      cases saveOk with
      | false => rfl
      | true => rfl

/-- Witness for the amended C9 at a busy state and a one-file job. -/
theorem C9_busy_flag_amended_witness :
    ((⟨true, [], []⟩ : AsyncState).isProcessing = true ∧
      ["m.wav"] ≠ []) ∧
    ((( ⟨true, [], []⟩ : AsyncState).isProcessing = true →
      startAudioSeparation "F" (fun _ => FileOutcome.separated true) ["m.wav"]
        ⟨true, [], []⟩ = ⟨true, [], []⟩) ∧
    ((⟨true, [], []⟩ : AsyncState).isProcessing = true →
      startFeatureGeneration "output_features/F.txt" (some true)
        ⟨true, [], []⟩ = ⟨true, [], []⟩) ∧
    isProcessing ⟨true, [], []⟩ = (⟨true, [], []⟩ : AsyncState).isProcessing ∧
    (∀ f, (sepFileStep "F" (fun _ => FileOutcome.separated true)
      ⟨true, [], []⟩ f).isProcessing = false) ∧
    (["m.wav"] ≠ [] →
      (processFileJob "F" (fun _ => FileOutcome.separated true) ["m.wav"]
        ⟨true, [], []⟩).isProcessing = false) ∧
    (startFeatureGeneration "output_features/F.txt" (some true)
      ⟨false, ([] : List SepEvent), ([] : List String)⟩).isProcessing = false) :=
  ⟨⟨rfl, by decide⟩,
   C9_busy_flag_amended "F" (fun _ => FileOutcome.separated true) ["m.wav"]
     ⟨true, [], []⟩ "output_features/F.txt" (some true)⟩

/-- Counterexample to C9 as stated: in a two-file separation job where
every file succeeds, the busy flag is already false after the first file's
terminal event although the job is still running (one file remains), so
the flag is not cleared exactly at the job's terminal state — and a
submission arriving at that moment would be accepted. -/
theorem C9_counterexample :
    (sepFileStep "F" (fun _ => FileOutcome.separated true)
      ⟨true, [], []⟩ "a.wav").isProcessing = false ∧
    processFileJob "F" (fun _ => FileOutcome.separated true)
        ["a.wav", "b.wav"] ⟨true, [], []⟩
      = processFileJob "F" (fun _ => FileOutcome.separated true) ["b.wav"]
          (sepFileStep "F" (fun _ => FileOutcome.separated true)
            ⟨true, [], []⟩ "a.wav") ∧
    ["b.wav"] ≠ [] ∧
    (startAudioSeparation "F" (fun _ => FileOutcome.separated true) ["c.wav"]
        (sepFileStep "F" (fun _ => FileOutcome.separated true)
          ⟨true, [], []⟩ "a.wav")
      ≠ sepFileStep "F" (fun _ => FileOutcome.separated true)
          ⟨true, [], []⟩ "a.wav") := by
  refine ⟨by decide, rfl, by decide, by decide⟩

/-! ## Claim C6 -/

theorem digits10Aux_zero (fuel : ℕ) : digits10Aux fuel 0 = 0 := by
  cases fuel with
  | zero => rfl
  | succ f => rw [digits10Aux]; simp

theorem digits10Aux_bounds (fuel : ℕ) :
    ∀ n, n ≤ fuel → n ≠ 0 →
      10 ^ (digits10Aux fuel n - 1) ≤ n ∧ n < 10 ^ digits10Aux fuel n := by
  induction fuel with
  | zero => intro n hn h0; omega
  | succ fuel ih =>
    intro n hn h0
    rw [digits10Aux, if_neg h0]
    by_cases hq : n / 10 = 0
    · rw [hq, digits10Aux_zero]
      norm_num
      omega
    · have hrec := ih (n / 10) (by omega) hq
      have hd1 : 1 ≤ digits10Aux fuel (n / 10) := by
        by_contra h
        push_neg at h
        have h' : digits10Aux fuel (n / 10) = 0 := by omega
        rw [h'] at hrec
        simp at hrec
        omega
      obtain ⟨hlb, hub⟩ := hrec
      have e1 : 10 ^ digits10Aux fuel (n / 10)
          = 10 * 10 ^ (digits10Aux fuel (n / 10) - 1) := by
        rw [← pow_succ']
        congr 1
        omega
      have e2 : 10 ^ (1 + digits10Aux fuel (n / 10))
          = 10 * 10 ^ digits10Aux fuel (n / 10) := by
        rw [← pow_succ']
        congr 1
        omega
      have hsub : 1 + digits10Aux fuel (n / 10) - 1
          = digits10Aux fuel (n / 10) := by omega
      rw [hsub]
      omega

theorem digits10_bounds (m : ℕ) (hm : m ≠ 0) :
    10 ^ (digits10 m - 1) ≤ m ∧ m < 10 ^ digits10 m :=
  digits10Aux_bounds m m le_rfl hm

theorem log10floorPos_lb (x : ℚ) (hx : 0 < x) :
    (10 : ℚ) ^ log10floorPos x ≤ x := by
  rw [log10floorPos]
  by_cases h1 : 1 ≤ x
  · rw [if_pos h1]
    have hfl : (1 : ℤ) ≤ ⌊x⌋ := by
      rw [Int.le_floor]
      exact_mod_cast h1
    have hm0 : ⌊x⌋.toNat ≠ 0 := by omega
    obtain ⟨hlb, hub⟩ := digits10_bounds ⌊x⌋.toNat hm0
    have hd1 : 1 ≤ digits10 ⌊x⌋.toNat := by
      by_contra h
      push_neg at h
      have h' : digits10 ⌊x⌋.toNat = 0 := by omega
      rw [h'] at hub
      simp at hub
      omega
    rw [show (digits10 ⌊x⌋.toNat : ℤ) - 1
        = ((digits10 ⌊x⌋.toNat - 1 : ℕ) : ℤ) by omega, zpow_natCast]
    calc (10 : ℚ) ^ (digits10 ⌊x⌋.toNat - 1 : ℕ)
        = ((10 ^ (digits10 ⌊x⌋.toNat - 1) : ℕ) : ℚ) := by push_cast; ring
    _ ≤ ((⌊x⌋.toNat : ℕ) : ℚ) := by exact_mod_cast hlb
    _ = ((⌊x⌋ : ℤ) : ℚ) := by
        rw [show ((⌊x⌋.toNat : ℕ) : ℚ) = (((⌊x⌋.toNat : ℕ) : ℤ) : ℚ) by push_cast; ring,
          Int.toNat_of_nonneg (by omega)]
    _ ≤ x := Int.floor_le x
  · rw [if_neg h1]
    have hden : (0 : ℚ) < (x.den : ℚ) := by
      exact_mod_cast x.pos
    have hnum : (1 : ℚ) ≤ (x.num : ℚ) := by
      have : (0 : ℤ) < x.num := Rat.num_pos.mpr hx
      exact_mod_cast this
    have hdenlt : (x.den : ℚ) < 10 ^ digits10 x.den := by
      obtain ⟨_, h⟩ := digits10_bounds x.den (by
        have := x.pos
        omega)
      exact_mod_cast h
    have hex : ∃ j ∈ List.range (digits10 x.den + 2),
        (fun k => decide (1 ≤ x * 10 ^ k)) j = true := by
      refine ⟨digits10 x.den, List.mem_range.mpr (by omega), ?_⟩
      rw [decide_eq_true_iff]
      have hxeq : x = (x.num : ℚ) / (x.den : ℚ) := (Rat.num_div_den x).symm
      have hxden : x * (x.den : ℚ) = (x.num : ℚ) := by
        have h := congrArg (fun y : ℚ => y * (x.den : ℚ)) hxeq
        simp only at h
        rw [div_mul_cancel₀ _ (ne_of_gt hden)] at h
        exact h
      have hpos : 0 < x * ((10 : ℚ) ^ digits10 x.den - (x.den : ℚ)) :=
        mul_pos hx (by linarith)
      have hexp : x * (10 : ℚ) ^ digits10 x.den
          = x * (x.den : ℚ) + x * ((10 : ℚ) ^ digits10 x.den - (x.den : ℚ)) := by
        ring
      linarith [hexp, hxden, hnum, hpos]
    obtain ⟨k, hk⟩ : ∃ k, (List.range (digits10 x.den + 2)).find?
        (fun k => decide (1 ≤ x * 10 ^ k)) = some k := by
      have := List.find?_isSome.mpr hex
      cases hfind : (List.range (digits10 x.den + 2)).find?
          (fun k => decide (1 ≤ x * 10 ^ k)) with
      | none => rw [hfind] at this; simp at this
      | some k => exact ⟨k, rfl⟩
    have hpk : 1 ≤ x * 10 ^ k := by
      have := List.find?_some hk
      rwa [decide_eq_true_iff] at this
    rw [hk]
    rw [Option.getD_some]
    rw [zpow_neg, zpow_natCast]
    have h10k : (0 : ℚ) < 10 ^ k := by positivity
    rw [inv_eq_one_div, div_le_iff₀ h10k]
    linarith

theorem sixDigits_zpow (x : ℚ) (hx : SixDigits x) :
    ∃ m : ℤ, ∃ t : ℤ, m.natAbs < 10 ^ 6 ∧ x = (m : ℚ) * (10 : ℚ) ^ t := by
  obtain ⟨m, e, hm, hx | hx⟩ := hx
  · exact ⟨m, (e : ℤ), hm, by rw [hx, zpow_natCast]⟩
  · refine ⟨m, -(e : ℤ), hm, ?_⟩
    rw [hx, zpow_neg, zpow_natCast]
    ring

theorem sig6pos_eq_self (x : ℚ) (hx : 0 < x) (m t : ℤ)
    (hm : m.natAbs < 10 ^ 6) (hxe : x = (m : ℚ) * (10 : ℚ) ^ t) :
    sig6pos x = x := by
  have h10 : (10 : ℚ) ≠ 0 := by norm_num
  have h101 : (1 : ℚ) < 10 := by norm_num
  have hp : (0 : ℚ) < (10 : ℚ) ^ t := zpow_pos (by norm_num) t
  have hm0 : 0 < m := by
    rcases lt_trichotomy m 0 with h | h | h
    · exfalso
      have hmq : (m : ℚ) < 0 := by exact_mod_cast h
      have : x < 0 := by rw [hxe]; exact mul_neg_of_neg_of_pos hmq hp
      linarith
    · exfalso
      rw [h] at hxe
      simp at hxe
      rw [hxe] at hx
      exact lt_irrefl 0 hx
    · exact h
  have hm6 : m < 10 ^ 6 := by
    have h6 : (10 : ℤ) ^ 6 = 1000000 := by norm_num
    have hm' : m.natAbs < 1000000 := by
      have : (10 : ℕ) ^ 6 = 1000000 := by norm_num
      omega
    omega
  have hmQ : (m : ℚ) < 1000000 := by exact_mod_cast (by omega : m < 1000000)
  have hub : x < (10 : ℚ) ^ (t + 6) := by
    rw [zpow_add₀ h10, show ((10 : ℚ) ^ (6 : ℤ)) = 1000000 by norm_num, hxe]
    nlinarith [mul_pos (by linarith : (0 : ℚ) < 1000000 - (m : ℚ)) hp]
  have hE := log10floorPos_lb x hx
  have hEt : log10floorPos x ≤ t + 5 := by
    have hlt : (10 : ℚ) ^ log10floorPos x < (10 : ℚ) ^ (t + 6) :=
      lt_of_le_of_lt hE hub
    have := (zpow_lt_zpow_iff_right₀ h101).mp hlt
    omega
  set E := log10floorPos x with hEdef
  have hsne : (10 : ℚ) ^ (E - 5) ≠ 0 := zpow_ne_zero _ h10
  have hdiv : x / (10 : ℚ) ^ (E - 5)
      = ((m * 10 ^ (t + 5 - E).toNat : ℤ) : ℚ) := by
    rw [hxe, mul_div_assoc, ← zpow_sub₀ h10]
    push_cast
    have hexp : t - (E - 5) = ((t + 5 - E).toNat : ℤ) := by omega
    rw [hexp, zpow_natCast]
  show sig6pos x = x
  simp only [sig6pos]
  rw [← hEdef, hdiv, round_intCast, ← hdiv]
  exact div_mul_cancel₀ x hsne

theorem sig6_eq_self (x : ℚ) (hx : SixDigits x) : sig6 x = x := by
  obtain ⟨m, t, hm, hxe⟩ := sixDigits_zpow x hx
  rcases lt_trichotomy x 0 with h | h | h
  · rw [sig6, if_neg (by linarith), if_pos h]
    have hneg : -x = ((-m : ℤ) : ℚ) * (10 : ℚ) ^ t := by
      rw [hxe]
      push_cast
      ring
    rw [sig6pos_eq_self (-x) (by linarith) (-m) t
      (by rw [Int.natAbs_neg]; exact hm) hneg]
    ring
  · rw [sig6, if_pos h, h]
  · rw [sig6, if_neg (Ne.symm (ne_of_lt h)), if_neg (by linarith)]
    exact sig6pos_eq_self x h m t hm hxe

theorem filterMap_some_eq (l : List ℚ) : l.filterMap some = l := by
  induction l with
  | nil => rfl
  | cons a l ih => rw [List.filterMap_cons]; simp [ih]

/-- C6 as amended: the embedding codec's round trip is lossy to exactly
`QTextStream`'s default 6 significant decimal digits: reading back a
written vector yields each component rounded to 6 significant digits
(`sig6`), and the round trip is the identity precisely on vectors whose
components are expressible with at most 6 significant decimal digits —
not on every float-32 vector. -/
theorem C6_roundtrip_amended (v : List ℚ) (hv : ∀ x ∈ v, SixDigits x) :
    loadEmbeddingFromFile (saveEmbeddingToFile v) = v ∧
    ∀ w : List ℚ, loadEmbeddingFromFile (saveEmbeddingToFile w) = w.map sig6 := by
  have hgen : ∀ w : List ℚ,
      loadEmbeddingFromFile (saveEmbeddingToFile w) = w.map sig6 := by
    intro w
    rw [loadEmbeddingFromFile, saveEmbeddingToFile, filterMap_some_eq]
  refine ⟨?_, hgen⟩
  rw [hgen v]
  have : ∀ x ∈ v, sig6 x = x := fun x hx => sig6_eq_self x (hv x hx)
  calc v.map sig6 = v.map id := List.map_congr_left this
  _ = v := List.map_id v

/-- Witness for the amended C6 on the one-component vector `[1/2]`
(`1/2 = 5 / 10^1` has one significant digit). -/
theorem C6_roundtrip_amended_witness :
    (∀ x ∈ [(1 : ℚ)/2], SixDigits x) ∧
    (loadEmbeddingFromFile (saveEmbeddingToFile [(1 : ℚ)/2]) = [(1 : ℚ)/2] ∧
     ∀ w : List ℚ, loadEmbeddingFromFile (saveEmbeddingToFile w) = w.map sig6) :=
  ⟨fun x hx => by
      rw [List.mem_singleton.mp hx]
      exact ⟨5, 1, by norm_num, Or.inr (by norm_num)⟩,
   C6_roundtrip_amended [(1 : ℚ)/2] (fun x hx => by
      rw [List.mem_singleton.mp hx]
      exact ⟨5, 1, by norm_num, Or.inr (by norm_num)⟩)⟩

/-- Counterexample to C6 as stated: the float-32-exact integer 16777215
(largest odd integer below `2^24`) writes as the 6-significant-digit token
`1.67772e+07` and reads back as 16777200 — both values are exactly
representable in float-32 (they are integers below `2^24`), so the change
exceeds float-32 rounding. -/
theorem C6_counterexample :
    loadEmbeddingFromFile (saveEmbeddingToFile [(16777215 : ℚ)])
      = [(16777200 : ℚ)] ∧
    (16777215 : ℚ) ≠ (16777200 : ℚ) ∧
    (16777215 : ℕ) < 2 ^ 24 ∧ (16777200 : ℕ) < 2 ^ 24 := by
  have hd8 : digits10 16777215 = 8 := by
    obtain ⟨hlb, hub⟩ := digits10_bounds 16777215 (by norm_num)
    by_contra hne
    rcases Nat.lt_or_ge (digits10 16777215) 8 with h | h
    · have hle : (10 : ℕ) ^ digits10 16777215 ≤ 10 ^ 7 :=
        Nat.pow_le_pow_right (by norm_num) (by omega)
      have h7 : (10 : ℕ) ^ 7 = 10000000 := by norm_num
      omega
    · have hle : (10 : ℕ) ^ 8 ≤ 10 ^ (digits10 16777215 - 1) :=
        Nat.pow_le_pow_right (by norm_num) (by omega)
      have h8 : (10 : ℕ) ^ 8 = 100000000 := by norm_num
      omega
  have hE : log10floorPos (16777215 : ℚ) = 7 := by
    rw [log10floorPos, if_pos (by norm_num)]
    rw [show ⌊(16777215 : ℚ)⌋ = 16777215 by norm_num]
    rw [show ((16777215 : ℤ)).toNat = 16777215 by omega]
    rw [hd8]
    norm_num
  have hsig : sig6 16777215 = 16777200 := by
    rw [sig6, if_neg (by norm_num), if_neg (by norm_num)]
    simp only [sig6pos]
    rw [hE]
    rw [show ((7 : ℤ) - 5) = 2 by norm_num]
    rw [show (10 : ℚ) ^ (2 : ℤ) = 100 by norm_num]
    rw [round_eq]
    rw [show (16777215 : ℚ)/100 + 1/2 = 3355453/20 by norm_num]
    norm_num
  refine ⟨?_, by norm_num, by norm_num, by norm_num⟩
  rw [loadEmbeddingFromFile, saveEmbeddingToFile, filterMap_some_eq,
    List.map_cons, List.map_nil, hsig]

end AudioSep
